import Mathlib

/-!
# Bounded-depth, domain-restricted crawler (`crawler/main.go`)

A shallow embedding of the crawler, and theorems about its domain filter,
link resolution, page indexer and concurrent traversal.

Modelling conventions.

* Go strings are modelled by `String`, read as their sequence of characters
  (`String.data`).
* `map[string]struct{}` (a set of strings) is a duplicate-free `List String`;
  only membership is observable.
* The two external collaborators, `http.Get` and `html.NewTokenizer`, are one
  parameter `fetch : String → Option (List Token)`: `none` is a failed
  `http.Get`, `some evs` is the sequence of tokens `tokenizer.Next()` yields.
  The tokenizer keeps answering `ErrorToken` once its input is exhausted, so
  the end of the list stands for `ErrorToken` with `io.EOF`.  The one fact
  about `http.Get` that a theorem relies on, that it refuses a URL without
  `scheme://`, is the explicit hypothesis `HttpGetContract`.
* Goroutines are tasks in a pool; a schedule names, step by step, the task
  that performs its next atomic action.  The atomic actions are the statements
  of `crawl` that touch shared state (`crawled`, the `WaitGroup`, the pool of
  goroutines).
* The map `crawled` is shared without a lock.  `step` and `run` are the
  executions in which no two accesses to the map overlap in time; `stepRacy`
  and `runRacy` add the other outcome, the runtime ending the process when a
  write of the map overlaps another access.  An overlap the runtime fails to
  notice is a data race whose result Go leaves open; it is not modelled.
* `fmt.Println` writes to standard output and does not influence any value;
  it is left out.
-/

namespace Crawler

/-! ## Library functions used by the source -/

/-- `strings.HasPrefix(s, prefix)`. -/
def HasPrefix (s pre : String) : Bool := pre.data.isPrefixOf s.data

/-- Cut a character sequence at every character satisfying `sep`; `k`
separators give `k + 1` pieces (possibly empty). -/
def splitOnP (sep : Char → Bool) : List Char → List (List Char)
  | [] => [[]]
  | c :: cs =>
    if sep c then [] :: splitOnP sep cs
    else match splitOnP sep cs with
      | [] => [[c]]
      | w :: ws => (c :: w) :: ws

/-- `strings.Split(s, sep)` for a one-character separator (the only call site
passes `"/"`). -/
def Split (s : String) (sep : Char) : List String :=
  (splitOnP (fun c => c == sep) s.data).map String.mk

/-- `strings.Join(elems, sep)`. -/
def Join : List String → String → String
  | [], _ => ""
  | [a], _ => a
  | a :: b :: rest, sep => a ++ sep ++ Join (b :: rest) sep

/-- The slice expression `xs[0:3]`: it panics (`none`) unless `3 ≤ len(xs)`
(`strings.Split` returns a slice whose capacity is its length). -/
def slice03 (xs : List String) : Option (List String) :=
  if 3 ≤ xs.length then some (xs.take 3) else none

/-- `strings.ToLower(s)` on the ASCII letters.  It agrees with the library on
every string of characters `[0-9A-Za-z_]`, which is all `buildIndex` passes to
`addWords`; on other letters the library also lower-cases and this does
not. -/
def ToLower (s : String) : String := String.mk (s.data.map Char.toLower)

/-- The character class `\w` of Go's `regexp`: `[0-9A-Za-z_]`. -/
def isWordChar (c : Char) : Bool := c.isAlphanum || c == '_'

/-- `regexp.MustCompile("\\W").Split(s, -1)`: every character outside
`[0-9A-Za-z_]` is one separator; the empty input gives one empty piece. -/
def splitExprSplit (s : String) : List String :=
  (splitOnP (fun c => !isWordChar c) s.data).map String.mk

/-- Assignment `m[k] = struct{}{}` on a set of strings. -/
def setInsert (k : String) (m : List String) : List String :=
  if k ∈ m then m else m ++ [k]

/-- Assignment `m[k] = v` on a `map[string]string`. -/
def mapSet (m : List (String × String)) (k v : String) : List (String × String) :=
  (k, v) :: m.filter (fun kv => kv.1 != k)

/-- Lookup `m[k]` on a `map[string]string`: the zero value `""` when absent. -/
def mapGet (m : List (String × String)) (k : String) : String :=
  match m.lookup k with
  | some v => v
  | none => ""

/-! ## The page indexer -/

/-- The error a tokenizer reports with an `ErrorToken`. -/
inductive StreamErr where
  | EOF
  | other (msg : String)
deriving DecidableEq, Repr

/-- The tokens of `html.Tokenizer`, with what the source reads from each:
the tag name, the attributes (`hasAttr` is `attrs ≠ []`), the raw text. -/
inductive Token where
  | ErrorToken (err : StreamErr)
  | TextToken (raw : String)
  | StartTagToken (tag : String) (attrs : List (String × String))
  | EndTagToken (tag : String)
  | SelfClosingTagToken (tag : String) (attrs : List (String × String))
  | CommentToken (raw : String)
  | DoctypeToken (raw : String)
deriving DecidableEq, Repr

/-- The struct `webPage`. -/
structure webPage where
  uri : String
  words : List String
  links : List String
deriving DecidableEq, Repr

/-- The method `(*webPage).addWords`. -/
def addWords (p : webPage) : List String → webPage
  | [] => p
  | word :: rest =>
    if word ≠ "" then
      addWords { p with words := setInsert (ToLower word) p.words } rest
    else addWords p rest

/-- The loop of `getAttrVals`: `t.TagAttr()` is called until it reports no
more attributes; each call stores `result[attrName] = attrVal`.  On a tag
without attributes the single call returns `(nil, nil, false)`. -/
def getAttrValsLoop (result : List (String × String)) :
    List (String × String) → List (String × String)
  | [] => mapSet result "" ""
  | [a] => mapSet result a.1 a.2
  | a :: b :: rest => getAttrValsLoop (mapSet result a.1 a.2) (b :: rest)

/-- The function `getAttrVals`. -/
def getAttrVals (attrs : List (String × String)) : List (String × String) :=
  getAttrValsLoop [] attrs

/-- The `for` loop of `buildIndex`: one iteration per token, with the local
variables `recording` and `content`. -/
def buildIndexLoop : List Token → Bool → webPage → webPage
  | [], _, content => content
  | tok :: rest, recording, content =>
    match tok with
    | Token.ErrorToken _ => content
    | Token.StartTagToken tag attrs =>
      if tag = "a" ∧ attrs ≠ [] then
        buildIndexLoop rest recording
          { content with links := content.links ++ [mapGet (getAttrVals attrs) "href"] }
      else if tag = "script" then buildIndexLoop rest false content
      else buildIndexLoop rest recording content
    | Token.EndTagToken tag =>
      if tag = "script" then buildIndexLoop rest true content
      else buildIndexLoop rest recording content
    | Token.TextToken raw =>
      if recording then buildIndexLoop rest recording (addWords content (splitExprSplit raw))
      else buildIndexLoop rest recording content
    | _ => buildIndexLoop rest recording content

/-- The function `buildIndex`: `none` is the error returned when `http.Get`
fails; a stream error never makes it fail. -/
def buildIndex (fetch : String → Option (List Token)) (uri : String) : Option webPage :=
  match fetch uri with
  | none => none
  | some evs => some (buildIndexLoop evs true { uri := uri, words := [], links := [] })

/-! ## The crawl coordinator -/

/-- The function `validDomain`. -/
def validDomain (link : String) : List String → Bool
  | [] => false
  | d :: ds => if HasPrefix link d then true else validDomain link ds

/-- Lines 55-57 of `crawl`: the value of `next` after the root-relative
rewrite; `none` is the run-time panic of an out-of-range slice. -/
def resolve (uri next : String) : Option String :=
  if HasPrefix next "/" then
    (slice03 (Split uri '/')).map (fun cs => Join cs "/" ++ next)
  else some next

/-- A goroutine and its program counter.
* `seeding seeds depth`: the goroutine of `crawlDomains` inside its
  `for _, uri := range seeds` loop, `seeds` still to be launched;
* `crawl uri depth`: a goroutine `go crawl(uri, depth, ...)` before
  `buildIndex`;
* `fetched content depth`: `buildIndex` returned `content`, before
  `crawled[content.uri] = struct{}{}`;
* `ranging content depth rest`: after the insertion, with the links `rest`
  still to be ranged over (none when `depth > 0` fails). -/
inductive Task where
  | seeding (seeds : List String) (depth : Int)
  | crawl (uri : String) (depth : Int)
  | fetched (content : webPage) (depth : Int)
  | ranging (content : webPage) (depth : Int) (rest : List String)
deriving DecidableEq, Repr

/-- The shared state of a run: the map `crawled`, the counter of the
`sync.WaitGroup`, the live goroutines, and whether a goroutine panicked
(which ends the process). -/
structure State where
  crawled : List String
  wg : Int
  tasks : List Task
  panicked : Bool
deriving DecidableEq, Repr

/-- What one atomic action of a goroutine does: its next program point (`none`
when it returns), the goroutines it starts with `go`, the map `crawled` after
the action, the amount added to the `WaitGroup` counter, and whether it
panics. -/
structure Effect where
  next : Option Task
  spawned : List Task
  crawled : List String
  wg : Int
  panic : Bool
deriving DecidableEq, Repr

/-- The next atomic action of a goroutine, given the current map `crawled`,
when no other access to the map overlaps it (`stepRacy` has the overlap).
On `seeding` it is one turn of the loop of `crawlDomains`; on `crawl`,
`fetched` and `ranging` it is the body of the function `crawl`, cut where it
reads or writes shared state: the call of `buildIndex`, the insertion in
`crawled`, and one turn of the loop over `content.links`. -/
def act (fetch : String → Option (List Token)) (domains : List String)
    (crawled : List String) : Task → Effect
  | Task.seeding [] _ =>
    -- the loop over the seeds is over: `wg.Wait()`
    { next := none, spawned := [], crawled := crawled, wg := 0, panic := false }
  | Task.seeding (uri :: rest) depth =>
    -- `wg.Add(1); go crawl(uri, depth, domains, crawled, &wg)`
    { next := some (Task.seeding rest depth), spawned := [Task.crawl uri depth],
      crawled := crawled, wg := 1, panic := false }
  | Task.crawl uri depth =>
    match buildIndex fetch uri with
    | none =>
      -- `if err != nil { return }`, then the deferred `wg.Done()`
      { next := none, spawned := [], crawled := crawled, wg := -1, panic := false }
    | some content =>
      { next := some (Task.fetched content depth), spawned := [], crawled := crawled,
        wg := 0, panic := false }
  | Task.fetched content depth =>
    -- `crawled[content.uri] = struct{}{}`, then the test `depth > 0`
    { next := some (Task.ranging content depth (if depth > 0 then content.links else [])),
      spawned := [], crawled := setInsert content.uri crawled, wg := 0, panic := false }
  | Task.ranging _ _ [] =>
    -- the function returns: the deferred `wg.Done()`
    { next := none, spawned := [], crawled := crawled, wg := -1, panic := false }
  | Task.ranging content depth (next :: rest) =>
    match resolve content.uri next with
    | none =>
      { next := some (Task.ranging content depth (next :: rest)), spawned := [],
        crawled := crawled, wg := 0, panic := true }
    | some next1 =>
      if validDomain next1 domains && !(crawled.contains next1) then
        -- `wg.Add(1); go crawl(next, depth - 1, domains, crawled, wg)`
        { next := some (Task.ranging content depth rest),
          spawned := [Task.crawl next1 (depth - 1)], crawled := crawled, wg := 1,
          panic := false }
      else
        { next := some (Task.ranging content depth rest), spawned := [], crawled := crawled,
          wg := 0, panic := false }

/-- The pool of goroutines after the one at position `i` acted. -/
def updateTasks (tasks : List Task) (i : Nat) (e : Effect) : List Task :=
  (match e.next with
   | some t => tasks.set i t
   | none => tasks.eraseIdx i) ++ e.spawned

/-- One atomic action of the goroutine at position `i` of the pool; nothing
happens after a panic or when there is no such goroutine. -/
def step (fetch : String → Option (List Token)) (domains : List String)
    (i : Nat) (s : State) : State :=
  if s.panicked then s else
  match s.tasks[i]? with
  | none => s
  | some t =>
    { crawled := (act fetch domains s.crawled t).crawled,
      wg := s.wg + (act fetch domains s.crawled t).wg,
      tasks := updateTasks s.tasks i (act fetch domains s.crawled t),
      panicked := (act fetch domains s.crawled t).panic }

/-- Run a schedule: the goroutines named by `sched` act in turn. -/
def run (fetch : String → Option (List Token)) (domains : List String) :
    List Nat → State → State
  | [], s => s
  | i :: sched, s => run fetch domains sched (step fetch domains i s)

/-- The state in which `crawlDomains` enters its loop over the seeds, with the
depth it hands to `crawl` as a parameter. -/
def crawlDomainsAt (depth : Int) (seeds : List String) : State :=
  { crawled := [], wg := 0, tasks := [Task.seeding seeds depth], panicked := false }

/-- The function `crawlDomains`: the depth is the constant `2`. -/
def crawlDomains (seeds : List String) : State := crawlDomainsAt 2 seeds

/-- Whether a goroutine is the one of `crawlDomains`, still launching seeds. -/
def isSeeding : Task → Bool
  | Task.seeding _ _ => true
  | _ => false

/-- The run is over: `crawlDomains` has left its loop, `wg.Wait()` has
returned because the counter is zero, and `crawled` is printed. -/
def finished (s : State) : Bool := !(s.tasks.any isSeeding) && s.wg == 0 && !s.panicked

/-! ## The scenario of the specification -/

/-- An anchor start tag with one `href` attribute. -/
def anchor (href : String) : Token := Token.StartTagToken "a" [("href", href)]

/-- The web of the scenario: `/start` links to `/a`, to another host and to
`/b`; `/a` links to `/c`; every other page is empty. -/
def scenarioFetch (uri : String) : Option (List Token) :=
  if uri = "https://x.test/start" then
    some [anchor "/a", anchor "https://other.test/y", anchor "https://x.test/b"]
  else if uri = "https://x.test/a" then some [anchor "/c"]
  else some []

/-- The initial state of the scenario: one seed, depth 1. -/
def scenarioInit : State := crawlDomainsAt 1 ["https://x.test/start"]

/-- The domain list of the scenario. -/
def scenarioDomains : List String := ["https://x.test"]


/-! ## Reference definitions for the page indexer -/

/-- The number of `/` characters of a string. -/
def slashCount (s : String) : Nat := s.data.count '/'


/-- Whether a token is an `ErrorToken`. -/
def isErrorToken : Token → Bool
  | Token.ErrorToken _ => true
  | _ => false

/-- The tokens the loop of `buildIndex` consumes: those before the first
`ErrorToken`. -/
def seenTokens (evs : List Token) : List Token := evs.takeWhile (fun t => !isErrorToken t)

/-- The `href` value of a tag: the value of its last attribute named `href`,
the empty string when it has none. -/
def hrefOf (attrs : List (String × String)) : String :=
  match attrs.reverse.find? (fun kv => kv.1 == "href") with
  | some kv => kv.2
  | none => ""

/-- The link one token contributes: a start tag `a` that carries attributes
contributes its `href` value. -/
def anchorHref : Token → Option String
  | Token.StartTagToken tag attrs => if tag = "a" ∧ attrs ≠ [] then some (hrefOf attrs) else none
  | _ => none

/-- The links of a stream, in stream order, duplicates kept. -/
def anchorHrefs (evs : List Token) : List String := (seenTokens evs).filterMap anchorHref

/-- The recording flag after a sequence of tokens, starting from `r`: a start
tag `script` clears it, an end tag `script` sets it. -/
def recordingAfter (r : Bool) : List Token → Bool
  | [] => r
  | Token.StartTagToken tag _ :: rest => recordingAfter (if tag = "script" then false else r) rest
  | Token.EndTagToken tag :: rest => recordingAfter (if tag = "script" then true else r) rest
  | _ :: rest => recordingAfter r rest

/-- The sequence `w` is a maximal run of word characters of `raw`: non-empty,
made of word characters, and bounded on each side by the end of `raw` or by a
character that is not a word character. -/
def MaximalWordRun (w raw : List Char) : Prop :=
  w ≠ [] ∧ (∀ c ∈ w, isWordChar c = true) ∧
  ∃ a b, raw = a ++ w ++ b
    ∧ (a = [] ∨ ∃ a0 x, a = a0 ++ [x] ∧ isWordChar x = false)
    ∧ (b = [] ∨ ∃ y b0, b = y :: b0 ∧ isWordChar y = false)

/-- The text tokens read while the recording flag is true: `raw` occurs in the
stream before any `ErrorToken`, after a prefix that leaves the flag set. -/
def RecordedText (evs : List Token) (raw : String) : Prop :=
  ∃ pre post, evs = pre ++ Token.TextToken raw :: post
    ∧ (∀ t ∈ pre, isErrorToken t = false) ∧ recordingAfter true pre = true

/-- The page `buildIndex` starts from. -/
def emptyPage (uri : String) : webPage := { uri := uri, words := [], links := [] }

/-! ## Reference definitions for the crawl coordinator -/

/-- The goroutine `t` is about to crawl and insert the URI `u`. -/
def targets (u : String) : Task → Prop
  | Task.seeding rest _ => u ∈ rest
  | Task.crawl uri _ => uri = u
  | Task.fetched content _ => content.uri = u
  | Task.ranging _ _ _ => False

/-- The URI `u` is visited or some live goroutine is about to visit it. -/
def Pending (u : String) (s : State) : Prop :=
  u ∈ s.crawled ∨ ∃ t ∈ s.tasks, targets u t

/-- The states one action away from `s` in the scenario. -/
def scenarioSuccs (s : State) : List State :=
  (List.range s.tasks.length).map (fun i => step scenarioFetch scenarioDomains i s)

/-- Breadth-first exploration of the scenario: `seen` is closed under
`scenarioSuccs` once no new state appears. -/
def scenarioExplore : Nat → List State → List State → List State
  | 0, _, seen => seen
  | n + 1, frontier, seen =>
    let new := (frontier.flatMap scenarioSuccs).eraseDups.filter (fun s => !seen.contains s)
    if new.isEmpty then seen else scenarioExplore n new (seen ++ new)

/-- The states of the scenario reachable under any schedule. -/
def scenarioReach : List State := scenarioExplore 30 [scenarioInit] [scenarioInit]

/-- What the exploration checks on each state of the scenario: its successors
are explored states, `https://x.test/c` is not visited, and a finished state
has visited exactly `/start`, `/a` and `/b`. -/
def scenarioCheck (s : State) : Bool :=
  (scenarioSuccs s).all scenarioReach.contains
  && !(s.crawled.contains "https://x.test/c")
  && (!finished s
      || s.crawled == ["https://x.test/start", "https://x.test/a", "https://x.test/b"]
      || s.crawled == ["https://x.test/start", "https://x.test/b", "https://x.test/a"])

/-- A page that links twice to the same in-domain URI. -/
def dupFetch (uri : String) : Option (List Token) :=
  if uri = "https://x.test/start" then some [anchor "/a", anchor "/a"] else some []

/-- A page whose token stream breaks off with a stream error after one
link. -/
def brokenFetch (uri : String) : Option (List Token) :=
  if uri = "https://x.test/p" then
    some [anchor "/q", Token.ErrorToken (StreamErr.other "unexpected EOF")]
  else some []

/-- A fetcher that answers for a URI without any `/`, which `http.Get` never
does. -/
def bareFetch (uri : String) : Option (List Token) :=
  if uri = "localhost" then some [anchor "/about"] else none

/-- What `http.Get` guarantees about the URL of a request that did not fail:
it has a scheme followed by `://` (a URL without scheme or without host is
refused before any request is sent). -/
def HttpGetContract (fetch : String → Option (List Token)) : Prop :=
  ∀ u, fetch u ≠ none → ∃ scheme rest : String, u = scheme ++ "://" ++ rest

/-- A fetcher that meets `HttpGetContract` and serves one page. -/
def httpFetch (uri : String) : Option (List Token) :=
  if uri = "https://github.com/fabritsius?tab=repositories" then
    some [anchor "/fabritsius/search", anchor "https://fabritsius.github.io/"]
  else none

/-- The domains of `main`. -/
def mainDomains : List String :=
  ["https://github.com/fabritsius", "https://fabritsius.github.io/"]

/-- The seeds of `main`. -/
def mainSeeds : List String := ["https://github.com/fabritsius?tab=repositories"]

/-- The invariant behind in-range resolution: goroutines crawl seeds or
in-domain URIs, and every fetched page has a URI with two `/`. -/
def slashTask (seeds domains : List String) : Task → Prop
  | Task.seeding rest _ => ∀ u ∈ rest, u ∈ seeds
  | Task.crawl uri _ => uri ∈ seeds ∨ validDomain uri domains = true
  | Task.fetched content _ => 2 ≤ slashCount content.uri
  | Task.ranging content _ _ => 2 ≤ slashCount content.uri

/-- The invariant behind "a failed fetch is never visited": every fetched
page comes from a successful fetch. -/
def fetchedTask (fetch : String → Option (List Token)) : Task → Prop
  | Task.fetched content _ => fetch content.uri ≠ none
  | _ => True

/-- The word `w` is stored for some text token read while recording, the
flag being `r` at the start of `evs`. -/
def Stored (r : Bool) (evs : List Token) (w : String) : Prop :=
  ∃ pre raw post, evs = pre ++ Token.TextToken raw :: post
    ∧ (∀ t ∈ pre, isErrorToken t = false) ∧ recordingAfter r pre = true
    ∧ ∃ x ∈ splitExprSplit raw, x ≠ "" ∧ w = ToLower x

/-- The local proof obligations of an invariant "every visited URI satisfies
`Q` and every goroutine satisfies `P`". -/
def LocalInv (fetch : String → Option (List Token)) (domains : List String)
    (P : Task → Prop) (Q : String → Prop) : Prop :=
  ∀ (crawled : List String) (t : Task), (∀ u ∈ crawled, Q u) → P t →
    (∀ u ∈ (act fetch domains crawled t).crawled, Q u)
    ∧ (∀ x, (act fetch domains crawled t).next = some x → P x)
    ∧ (∀ x ∈ (act fetch domains crawled t).spawned, P x)

/-- The invariant itself. -/
def Inv (P : Task → Prop) (Q : String → Prop) (s : State) : Prop :=
  (∀ u ∈ s.crawled, Q u) ∧ (∀ t ∈ s.tasks, P t)

/-- What a goroutine is allowed to crawl: a seed or a URI inside the
domains. -/
def allowedTask (seeds domains : List String) : Task → Prop
  | Task.seeding rest _ => ∀ u ∈ rest, u ∈ seeds
  | Task.crawl uri _ => uri ∈ seeds ∨ validDomain uri domains = true
  | Task.fetched content _ => content.uri ∈ seeds ∨ validDomain content.uri domains = true
  | Task.ranging _ _ _ => True


/-- What a goroutine contributes to the `WaitGroup` counter: one for every
`go crawl(...)`, nothing for the goroutine of `crawlDomains`. -/
def counted : Task → Nat
  | Task.seeding _ _ => 0
  | _ => 1

/-- A bound on the number of actions a goroutine `crawl(uri, depth)` and its
descendants can perform, with `n` the depth (zero when negative). -/
def crawlWeight (fetch : String → Option (List Token)) : Nat → String → Nat
  | 0, uri =>
    1 + match buildIndex fetch uri with
      | none => 0
      | some _ => 2
  | n + 1, uri =>
    1 + match buildIndex fetch uri with
      | none => 0
      | some content =>
        2 + (content.links.map (fun l =>
              1 + match resolve content.uri l with
                | none => 0
                | some v => crawlWeight fetch n v)).sum

/-- A bound on the actions caused by ranging over one link of a page. -/
def linkWeight (fetch : String → Option (List Token)) (uri : String) (childDepth : Int)
    (l : String) : Nat :=
  1 + match resolve uri l with
    | none => 0
    | some v => crawlWeight fetch childDepth.toNat v

/-- A bound on the number of actions a goroutine and its descendants can
still perform. -/
def weight (fetch : String → Option (List Token)) : Task → Nat
  | Task.seeding seeds depth => 1 + (seeds.map (fun u => 1 + crawlWeight fetch depth.toNat u)).sum
  | Task.crawl uri depth => crawlWeight fetch depth.toNat uri
  | Task.fetched content depth =>
    2 + ((if depth > 0 then content.links else []).map
          (linkWeight fetch content.uri (depth - 1))).sum
  | Task.ranging content depth rest =>
    1 + (rest.map (linkWeight fetch content.uri (depth - 1))).sum

/-! ## Overlapping accesses to the map `crawled`

The map is shared without a lock.  `step` and `run` describe the executions
in which no two accesses to it overlap in time.  The Go runtime ends the
process (`fatal error: concurrent map writes`, or `concurrent map read and map
write`) when it meets a write that overlaps another access; `stepRacy` and
`runRacy` add that outcome. -/

/-- Whether the next action of a goroutine writes the map:
`crawled[content.uri] = struct{}{}`. -/
def writesMap : Task → Bool
  | Task.fetched _ _ => true
  | _ => false

/-- Whether the next action of a goroutine reads the map: the lookup
`crawled[next]`, reached when the resolved link passes `validDomain`. -/
def readsMap (domains : List String) : Task → Bool
  | Task.ranging content _ (next :: _) =>
    match resolve content.uri next with
    | some next1 => validDomain next1 domains
    | none => false
  | _ => false

/-- Two next actions the runtime does not let overlap: two writes of the map,
or a write and a read. -/
def conflicting (domains : List String) (t1 t2 : Task) : Bool :=
  (writesMap t1 && (writesMap t2 || readsMap domains t2))
  || (writesMap t2 && readsMap domains t1)

/-- What happens next: the goroutine `i` performs its next action with no
other map access overlapping it, or the next actions of the goroutines `i` and
`j` overlap in time. -/
inductive Move where
  | alone (i : Nat)
  | overlap (i j : Nat)
deriving DecidableEq, Repr

/-- One move; `none` is the process ended by the runtime because two
conflicting map accesses overlapped. -/
def stepRacy (fetch : String → Option (List Token)) (domains : List String) :
    Move → State → Option State
  | Move.alone i, s => some (step fetch domains i s)
  | Move.overlap i j, s =>
    if s.panicked then some s else
    match s.tasks[i]?, s.tasks[j]? with
    | some t1, some t2 => if i ≠ j ∧ conflicting domains t1 t2 = true then none else some s
    | _, _ => some s

/-- Run a sequence of moves; `none` once the runtime has ended the process. -/
def runRacy (fetch : String → Option (List Token)) (domains : List String) :
    List Move → State → Option State
  | [], s => some s
  | m :: ms, s =>
    match stepRacy fetch domains m s with
    | none => none
    | some s1 => runRacy fetch domains ms s1

/-! # Theorems -/

/-! ## Strings -/

theorem HasPrefix_iff (s pre : String) : HasPrefix s pre = true ↔ ∃ t : String, s = pre ++ t := by
  unfold HasPrefix
  rw [List.isPrefixOf_iff_prefix]
  constructor
  · rintro ⟨t, ht⟩
    exact ⟨String.mk t, String.ext (by simp [ht])⟩
  · rintro ⟨t, rfl⟩
    exact ⟨t.data, by simp⟩

theorem HasPrefix_empty (s : String) : HasPrefix s "" = true :=
  (HasPrefix_iff s "").2 ⟨s, by simp⟩

theorem splitOnP_ne_nil (sep : Char → Bool) (cs : List Char) : splitOnP sep cs ≠ [] := by
  cases cs with
  | nil => simp [splitOnP]
  | cons c cs =>
    unfold splitOnP
    split
    · simp
    · split <;> simp

theorem splitOnP_length (sep : Char → Bool) (cs : List Char) :
    (splitOnP sep cs).length = cs.countP sep + 1 := by
  induction cs with
  | nil => simp [splitOnP]
  | cons c cs ih =>
    unfold splitOnP
    by_cases h : sep c = true
    · simp [h, ih]
    · simp only [h, Bool.false_eq_true, ↓reduceIte]
      rw [List.countP_cons_of_neg _ _ h, ← ih]
      split
      · rename_i h0; exact absurd h0 (splitOnP_ne_nil sep cs)
      · rename_i w ws h0; simp [h0]

theorem splitOnP_cons_sep (sep : Char → Bool) (c : Char) (cs : List Char) (h : sep c = true) :
    splitOnP sep (c :: cs) = [] :: splitOnP sep cs := by
  rw [splitOnP]; simp [h]

theorem splitOnP_cons_not (sep : Char → Bool) (c : Char) (cs : List Char) (h : sep c = false) :
    splitOnP sep (c :: cs) = (c :: (splitOnP sep cs).headD []) :: (splitOnP sep cs).tail := by
  rw [splitOnP]
  simp only [h, Bool.false_eq_true, ↓reduceIte]
  split
  · rename_i h0; exact absurd h0 (splitOnP_ne_nil sep cs)
  · rename_i w ws h0; simp [h0]

/-- A piece free of separators, followed by a separator: the first piece. -/
theorem splitOnP_append_sep (sep : Char → Bool) (w : List Char) (x : Char) (rest : List Char)
    (hw : ∀ c ∈ w, sep c = false) (hx : sep x = true) :
    splitOnP sep (w ++ x :: rest) = w :: splitOnP sep rest := by
  induction w with
  | nil => simp [splitOnP, hx]
  | cons c w ih =>
    have hc : sep c = false := hw c (List.mem_cons_self _ _)
    have ih1 := ih (fun d hd => hw d (List.mem_cons_of_mem _ hd))
    simp only [List.cons_append]
    rw [splitOnP_cons_not sep c _ hc, ih1]
    simp

theorem splitOnP_no_sep (sep : Char → Bool) (w : List Char)
    (hw : ∀ c ∈ w, sep c = false) : splitOnP sep w = [w] := by
  induction w with
  | nil => simp [splitOnP]
  | cons c w ih =>
    have hc : sep c = false := hw c (List.mem_cons_self _ _)
    have ih1 := ih (fun d hd => hw d (List.mem_cons_of_mem _ hd))
    rw [splitOnP_cons_not sep c _ hc, ih1]
    simp

theorem Split_length (s : String) : (Split s '/').length = slashCount s + 1 := by
  unfold Split slashCount
  rw [List.length_map, splitOnP_length]
  rfl

theorem slashCount_append (s t : String) : slashCount (s ++ t) = slashCount s + slashCount t := by
  simp [slashCount]

theorem validDomain_iff_exists (link : String) (domains : List String) :
    validDomain link domains = true ↔ ∃ d ∈ domains, ∃ t : String, link = d ++ t := by
  induction domains with
  | nil => simp [validDomain]
  | cons d ds ih =>
    unfold validDomain
    by_cases h : HasPrefix link d = true
    · simp only [h, ↓reduceIte, List.mem_cons, true_iff]
      exact ⟨d, Or.inl rfl, (HasPrefix_iff link d).1 h⟩
    · simp only [h, Bool.false_eq_true, ↓reduceIte, ih, List.mem_cons]
      constructor
      · rintro ⟨e, he, ht⟩
        exact ⟨e, Or.inr he, ht⟩
      · rintro ⟨e, he | he, ht⟩
        · subst he
          exact absurd ((HasPrefix_iff link e).2 ht) h
        · exact ⟨e, he, ht⟩

theorem resolve_isSome_iff (p r : String) (hr : HasPrefix r "/" = true) :
    (resolve p r).isSome = true ↔ 2 ≤ slashCount p := by
  unfold resolve slice03
  simp only [hr, ↓reduceIte, Split_length]
  by_cases h : 3 ≤ slashCount p + 1
  · simp only [h, ↓reduceIte, Option.map_some', Option.isSome_some, true_iff]; omega
  · simp only [h, ↓reduceIte, Option.map_none', Option.isSome_none, Bool.false_eq_true, false_iff]; omega

theorem Split_three (a b c tail : String)
    (ha : '/' ∉ a.data) (hb : '/' ∉ b.data) (hc : '/' ∉ c.data)
    (ht : tail = "" ∨ HasPrefix tail "/" = true) :
    slice03 (Split (a ++ "/" ++ b ++ "/" ++ c ++ tail) '/') = some [a, b, c] := by
  have sepa : ∀ x ∈ a.data, (x == '/') = false := fun x hx => by
    simp only [beq_eq_false_iff_ne, ne_eq]; rintro rfl; exact ha hx
  have sepb : ∀ x ∈ b.data, (x == '/') = false := fun x hx => by
    simp only [beq_eq_false_iff_ne, ne_eq]; rintro rfl; exact hb hx
  have sepc : ∀ x ∈ c.data, (x == '/') = false := fun x hx => by
    simp only [beq_eq_false_iff_ne, ne_eq]; rintro rfl; exact hc hx
  have hs : (("/" : String)).data = ['/'] := rfl
  have hd : (a ++ "/" ++ b ++ "/" ++ c ++ tail).data
      = a.data ++ '/' :: (b.data ++ '/' :: (c.data ++ tail.data)) := by
    simp [String.data_append, hs]
  have key : ∃ more, splitOnP (fun x => x == '/') (c.data ++ tail.data) = c.data :: more := by
    rcases ht with rfl | ht
    · refine ⟨[], ?_⟩
      have : (("" : String)).data = [] := rfl
      rw [this, List.append_nil]
      exact splitOnP_no_sep _ _ sepc
    · obtain ⟨t, rfl⟩ := (HasPrefix_iff tail "/").1 ht
      refine ⟨splitOnP (fun x => x == '/') t.data, ?_⟩
      rw [String.data_append, hs, List.singleton_append]
      exact splitOnP_append_sep _ _ _ _ sepc (by simp)
  obtain ⟨more, hmore⟩ := key
  unfold Split slice03
  rw [hd, splitOnP_append_sep _ _ _ _ sepa (by simp), splitOnP_append_sep _ _ _ _ sepb (by simp),
    hmore]
  simp

/-- C1: `validDomain(link, domains)` is true exactly when some element of
`domains` is a character-for-character prefix of `link`; it is false on the
empty domain list and true whenever the empty string is among the domains. -/
theorem validDomain_spec (link : String) (domains : List String) :
    (validDomain link domains = true ↔ ∃ d ∈ domains, ∃ t : String, link = d ++ t)
    ∧ validDomain link [] = false
    ∧ ("" ∈ domains → validDomain link domains = true) := by
  refine ⟨validDomain_iff_exists link domains, rfl, fun h => ?_⟩
  exact (validDomain_iff_exists link domains).2 ⟨"", h, link, by simp⟩

theorem validDomain_spec_witness :
    (validDomain "https://x.test/a" ["https://y.test", "https://x.test"] = true
      ↔ ∃ d ∈ ["https://y.test", "https://x.test"], ∃ t : String, "https://x.test/a" = d ++ t)
    ∧ validDomain "https://x.test/a" [] = false
    ∧ ("" ∈ ["https://y.test", ""] → validDomain "mailto:me" ["https://y.test", ""] = true) :=
  ⟨(validDomain_spec "https://x.test/a" ["https://y.test", "https://x.test"]).1,
   (validDomain_spec "https://x.test/a" ["https://y.test", "https://x.test"]).2.1,
   (validDomain_spec "mailto:me" ["https://y.test", ""]).2.2⟩

/-- C2: link resolution inside `crawl`.  A link that does not begin with `/`
is left unchanged.  A link `r` that begins with `/` becomes the first three
`/`-delimited components of the page URI joined by `/`, followed by `r` (there
is no resolved link when the slice `[0:3]` is out of range): for a page URI
`c1/c2/c3` or `c1/c2/c3/...` the result is `c1/c2/c3` followed by `r`; for
`https://example.com/a/b` and `/c/d` it is `https://example.com/c/d`. -/
theorem resolve_spec (p r : String) :
    (HasPrefix r "/" = false → resolve p r = some r)
    ∧ (HasPrefix r "/" = true →
        resolve p r = (slice03 (Split p '/')).map (fun cs => Join cs "/" ++ r))
    ∧ (HasPrefix r "/" = true → ∀ c1 c2 c3 tail : String,
        '/' ∉ c1.data → '/' ∉ c2.data → '/' ∉ c3.data →
        (tail = "" ∨ HasPrefix tail "/" = true) →
        p = c1 ++ "/" ++ c2 ++ "/" ++ c3 ++ tail →
        resolve p r = some (c1 ++ "/" ++ c2 ++ "/" ++ c3 ++ r))
    ∧ resolve "https://example.com/a/b" "/c/d" = some "https://example.com/c/d" := by
  refine ⟨fun h => ?_, fun h => ?_, fun h c1 c2 c3 tail h1 h2 h3 ht hp => ?_, by decide⟩
  · simp [resolve, h]
  · simp [resolve, h]
  · subst hp
    unfold resolve
    rw [if_pos h, Split_three c1 c2 c3 tail h1 h2 h3 ht]
    simp [Join, String.append_assoc]

theorem resolve_spec_witness :
    resolve "https://example.com/a/b" "https://other.test/y" = some "https://other.test/y"
    ∧ resolve "https://example.com/a/b" "/c/d" = some ("https:" ++ "/" ++ "" ++ "/" ++ "example.com" ++ "/c/d") :=
  ⟨(resolve_spec "https://example.com/a/b" "https://other.test/y").1 (by decide),
   (resolve_spec "https://example.com/a/b" "/c/d").2.2.1 (by decide)
     "https:" "" "example.com" "/a/b" (by decide) (by decide) (by decide)
     (Or.inr (by decide)) (by decide)⟩

/-! ## The page indexer: links -/

theorem lookup_filter_ne (m : List (String × String)) (k k1 : String) (h : k1 ≠ k) :
    (m.filter (fun kv => kv.1 != k)).lookup k1 = m.lookup k1 := by
  induction m with
  | nil => rfl
  | cons kv m ih =>
    obtain ⟨a, b⟩ := kv
    by_cases hk : a = k
    · subst hk
      have h1 : (k1 == a) = false := by simp [h]
      simp [List.filter_cons, List.lookup_cons, h1, ih]
    · have h2 : (a != k) = true := by simp [hk]
      simp only [List.filter_cons, h2, ↓reduceIte, List.lookup_cons, ih]

theorem mapGet_mapSet (m : List (String × String)) (k v k1 : String) :
    mapGet (mapSet m k v) k1 = if k1 = k then v else mapGet m k1 := by
  unfold mapGet mapSet
  by_cases h : k1 = k
  · subst h; simp [List.lookup_cons]
  · have h1 : (k1 == k) = false := by simp [h]
    simp only [List.lookup_cons, h1, h, ↓reduceIte, lookup_filter_ne m k k1 h]

theorem mapGet_getAttrValsLoop (k : String) (attrs : List (String × String)) :
    ∀ result, attrs ≠ [] →
      mapGet (getAttrValsLoop result attrs) k =
        match attrs.reverse.find? (fun kv => kv.1 == k) with
        | some kv => kv.2
        | none => mapGet result k := by
  induction attrs with
  | nil => intro _ h; exact absurd rfl h
  | cons a rest ih =>
    intro result _
    cases rest with
    | nil =>
      simp only [getAttrValsLoop, mapGet_mapSet, List.reverse_cons, List.reverse_nil,
        List.nil_append, List.find?_cons, List.find?_nil]
      by_cases h : a.1 = k
      · simp [h]
      · have h1 : ¬ k = a.1 := fun e => h e.symm
        have h2 : (a.1 == k) = false := by simp [h]
        simp [h1, h2]
    | cons b rest =>
      rw [getAttrValsLoop, ih (mapSet result a.1 a.2) (by simp)]
      rw [List.reverse_cons (a := a), List.find?_append]
      cases hf : List.find? (fun kv => kv.1 == k) (b :: rest).reverse with
      | some kv => simp
      | none =>
        simp only [Option.none_or, List.find?_cons, List.find?_nil, mapGet_mapSet]
        by_cases h : a.1 = k
        · simp [h]
        · have h1 : ¬ k = a.1 := fun e => h e.symm
          have h2 : (a.1 == k) = false := by simp [h]
          simp [h1, h2]

theorem mapGet_getAttrVals (attrs : List (String × String)) (h : attrs ≠ []) :
    mapGet (getAttrVals attrs) "href" = hrefOf attrs := by
  unfold getAttrVals hrefOf
  rw [mapGet_getAttrValsLoop "href" attrs [] h]
  cases List.find? (fun kv => kv.1 == "href") attrs.reverse <;> rfl

theorem addWords_links (p : webPage) (ws : List String) : (addWords p ws).links = p.links := by
  induction ws generalizing p with
  | nil => rfl
  | cons w ws ih =>
    unfold addWords
    split
    · rw [ih]
    · rw [ih]

theorem addWords_uri (p : webPage) (ws : List String) : (addWords p ws).uri = p.uri := by
  induction ws generalizing p with
  | nil => rfl
  | cons w ws ih =>
    unfold addWords
    split
    · rw [ih]
    · rw [ih]

theorem buildIndexLoop_uri (evs : List Token) :
    ∀ recording content, (buildIndexLoop evs recording content).uri = content.uri := by
  induction evs with
  | nil => intro _ _; rfl
  | cons tok rest ih =>
    intro recording content
    cases tok <;> simp only [buildIndexLoop] <;> repeat' split
    all_goals simp only [ih, addWords_uri]

theorem buildIndexLoop_links (evs : List Token) :
    ∀ recording content,
      (buildIndexLoop evs recording content).links = content.links ++ anchorHrefs evs := by
  induction evs with
  | nil => intro _ _; simp [buildIndexLoop, anchorHrefs, seenTokens]
  | cons tok rest ih =>
    intro recording content
    have hrest : anchorHrefs rest = (seenTokens rest).filterMap anchorHref := rfl
    cases tok with
    | ErrorToken e => simp [buildIndexLoop, anchorHrefs, seenTokens, isErrorToken]
    | StartTagToken tag attrs =>
      simp only [buildIndexLoop]
      by_cases h : tag = "a" ∧ attrs ≠ []
      · rw [if_pos h, ih]
        simp [anchorHrefs, seenTokens, isErrorToken, List.takeWhile_cons, anchorHref, h,
          mapGet_getAttrVals attrs h.2]
      · rw [if_neg h]
        split <;> rw [ih] <;>
          simp [anchorHrefs, seenTokens, isErrorToken, List.takeWhile_cons, anchorHref, h]
    | EndTagToken tag =>
      simp only [buildIndexLoop]
      split <;> rw [ih] <;>
        simp [anchorHrefs, seenTokens, isErrorToken, List.takeWhile_cons, anchorHref]
    | TextToken raw =>
      simp only [buildIndexLoop]
      split <;> rw [ih] <;>
        simp [anchorHrefs, seenTokens, isErrorToken, List.takeWhile_cons, anchorHref,
          addWords_links]
    | SelfClosingTagToken tag attrs =>
      simp only [buildIndexLoop]; rw [ih]
      simp [anchorHrefs, seenTokens, isErrorToken, List.takeWhile_cons, anchorHref]
    | CommentToken raw =>
      simp only [buildIndexLoop]; rw [ih]
      simp [anchorHrefs, seenTokens, isErrorToken, List.takeWhile_cons, anchorHref]
    | DoctypeToken raw =>
      simp only [buildIndexLoop]; rw [ih]
      simp [anchorHrefs, seenTokens, isErrorToken, List.takeWhile_cons, anchorHref]

theorem buildIndex_uri (fetch : String → Option (List Token)) (uri : String) (c : webPage)
    (h : buildIndex fetch uri = some c) : c.uri = uri := by
  unfold buildIndex at h
  cases hf : fetch uri with
  | none => simp [hf] at h
  | some evs =>
    simp only [hf, Option.some.injEq] at h
    rw [← h, buildIndexLoop_uri]

theorem buildIndex_eq_none (fetch : String → Option (List Token)) (uri : String) :
    buildIndex fetch uri = none ↔ fetch uri = none := by
  unfold buildIndex
  cases fetch uri <;> simp

/-- C9: the links of the page built by `buildIndex` are, in stream order and
with duplicates kept, the `href` values of the start tags `a` that carry
attributes (the empty string when the value is empty or absent), whatever the
recording flag is; no other token changes the links. -/
theorem buildIndex_links (evs : List Token) (recording : Bool) (content : webPage)
    (uri : String) :
    (buildIndexLoop evs recording content).links = content.links ++ anchorHrefs evs
    ∧ (buildIndexLoop evs true content).links = (buildIndexLoop evs false content).links
    ∧ (buildIndex (fun _ => some evs) uri).map webPage.links = some (anchorHrefs evs)
    ∧ (buildIndex (fun _ => some
          [Token.StartTagToken "script" [], anchor "/in", Token.TextToken "x",
           Token.StartTagToken "a" [("class", "k")], Token.StartTagToken "a" [],
           Token.EndTagToken "script", anchor "", anchor "/in"]) uri).map webPage.links
        = some ["/in", "", "", "/in"] := by
  refine ⟨buildIndexLoop_links evs recording content, ?_, ?_, ?_⟩
  · rw [buildIndexLoop_links, buildIndexLoop_links]
  · simp [buildIndex, buildIndexLoop_links]
  · simp only [buildIndex, Option.map_some', buildIndexLoop_links]
    decide

/-! ## The page indexer: words -/

theorem splitOnP_head (sep : Char → Bool) (cs : List Char) :
    ∃ b, cs = (splitOnP sep cs).headD [] ++ b
      ∧ (∀ c ∈ (splitOnP sep cs).headD [], sep c = false)
      ∧ (b = [] ∨ ∃ y b0, b = y :: b0 ∧ sep y = true) := by
  induction cs with
  | nil => exact ⟨[], by simp [splitOnP]⟩
  | cons c cs ih =>
    by_cases h : sep c = true
    · rw [splitOnP_cons_sep sep c cs h]
      exact ⟨c :: cs, by simp, by simp, Or.inr ⟨c, cs, rfl, h⟩⟩
    · have h1 : sep c = false := by simpa using h
      obtain ⟨b, hb, hall, hsep⟩ := ih
      rw [splitOnP_cons_not sep c cs h1]
      refine ⟨b, ?_, ?_, hsep⟩
      · simp only [List.headD_cons, List.cons_append, List.cons.injEq, true_and]
        exact hb
      · intro d hd
        simp only [List.headD_cons, List.mem_cons] at hd
        rcases hd with rfl | hd
        · exact h1
        · exact hall d hd

theorem splitOnP_eq_head_tail (sep : Char → Bool) (cs : List Char) :
    splitOnP sep cs = (splitOnP sep cs).headD [] :: (splitOnP sep cs).tail := by
  cases h : splitOnP sep cs with
  | nil => exact absurd h (splitOnP_ne_nil sep cs)
  | cons w ws => rfl

theorem splitOnP_tail (sep : Char → Bool) (cs : List Char) :
    ∀ w ∈ (splitOnP sep cs).tail,
      ∃ a0 x b, cs = (a0 ++ [x]) ++ w ++ b ∧ sep x = true
        ∧ (∀ c ∈ w, sep c = false)
        ∧ (b = [] ∨ ∃ y b0, b = y :: b0 ∧ sep y = true) := by
  induction cs with
  | nil => intro w hw; simp [splitOnP] at hw
  | cons c cs ih =>
    intro w hw
    by_cases h : sep c = true
    · rw [splitOnP_cons_sep sep c cs h, List.tail_cons, splitOnP_eq_head_tail sep cs,
        List.mem_cons] at hw
      rcases hw with rfl | hw
      · obtain ⟨b, hb, hall, hsep⟩ := splitOnP_head sep cs
        exact ⟨[], c, b, by simpa using hb, h, hall, hsep⟩
      · obtain ⟨a0, x, b, hcs, hx, hall, hsep⟩ := ih w hw
        exact ⟨c :: a0, x, b, by simp [hcs], hx, hall, hsep⟩
    · have h1 : sep c = false := by simpa using h
      rw [splitOnP_cons_not sep c cs h1, List.tail_cons] at hw
      obtain ⟨a0, x, b, hcs, hx, hall, hsep⟩ := ih w hw
      exact ⟨c :: a0, x, b, by simp [hcs], hx, hall, hsep⟩

theorem splitOnP_head_of (sep : Char → Bool) (w b : List Char)
    (hw : ∀ c ∈ w, sep c = false) (hb : b = [] ∨ ∃ y b0, b = y :: b0 ∧ sep y = true) :
    (splitOnP sep (w ++ b)).headD [] = w := by
  rcases hb with rfl | ⟨y, b0, rfl, hy⟩
  · rw [List.append_nil, splitOnP_no_sep sep w hw]; rfl
  · rw [splitOnP_append_sep sep w y b0 hw hy]; rfl

theorem splitOnP_mem_tail_of (sep : Char → Bool) (a0 : List Char) (x : Char) (w b : List Char)
    (hx : sep x = true) (hw : ∀ c ∈ w, sep c = false)
    (hb : b = [] ∨ ∃ y b0, b = y :: b0 ∧ sep y = true) :
    w ∈ (splitOnP sep ((a0 ++ [x]) ++ w ++ b)).tail := by
  induction a0 with
  | nil =>
    have e : (([] : List Char) ++ [x]) ++ w ++ b = x :: (w ++ b) := by simp
    rw [e, splitOnP_cons_sep sep x _ hx, List.tail_cons, splitOnP_eq_head_tail sep (w ++ b),
      splitOnP_head_of sep w b hw hb]
    exact List.mem_cons_self _ _
  | cons c a0 ih =>
    have e : ((c :: a0) ++ [x]) ++ w ++ b = c :: ((a0 ++ [x]) ++ w ++ b) := by simp
    rw [e]
    by_cases h : sep c = true
    · rw [splitOnP_cons_sep sep c _ h, List.tail_cons]
      exact List.mem_of_mem_tail ih
    · have h1 : sep c = false := by simpa using h
      rw [splitOnP_cons_not sep c _ h1, List.tail_cons]
      exact ih

/-- The non-empty pieces of a split are the maximal separator-free runs. -/
theorem mem_splitOnP_iff (sep : Char → Bool) (cs w : List Char) :
    w ∈ splitOnP sep cs ↔
      (∀ c ∈ w, sep c = false) ∧ ∃ a b, cs = a ++ w ++ b
        ∧ (a = [] ∨ ∃ a0 x, a = a0 ++ [x] ∧ sep x = true)
        ∧ (b = [] ∨ ∃ y b0, b = y :: b0 ∧ sep y = true) := by
  constructor
  · intro hw
    rw [splitOnP_eq_head_tail sep cs, List.mem_cons] at hw
    rcases hw with rfl | hw
    · obtain ⟨b, hb, hall, hsep⟩ := splitOnP_head sep cs
      exact ⟨hall, [], b, by simpa using hb, Or.inl rfl, hsep⟩
    · obtain ⟨a0, x, b, hcs, hx, hall, hsep⟩ := splitOnP_tail sep cs w hw
      exact ⟨hall, a0 ++ [x], b, hcs, Or.inr ⟨a0, x, rfl, hx⟩, hsep⟩
  · rintro ⟨hall, a, b, rfl, ha, hb⟩
    rcases ha with rfl | ⟨a0, x, rfl, hx⟩
    · rw [List.nil_append, splitOnP_eq_head_tail sep (w ++ b), splitOnP_head_of sep w b hall hb]
      exact List.mem_cons_self _ _
    · exact List.mem_of_mem_tail (splitOnP_mem_tail_of sep a0 x w b hx hall hb)

theorem ascii_toLower_word : ∀ n : Fin 128, isWordChar (Char.ofNat n.1) = true →
    isWordChar (Char.ofNat n.1).toLower = true ∧ (Char.ofNat n.1).toLower.isUpper = false := by
  decide

theorem isWordChar_lt (c : Char) (h : isWordChar c = true) : c.toNat < 128 := by
  simp only [isWordChar, Char.isAlphanum, Char.isAlpha, Char.isUpper, Char.isLower, Char.isDigit,
    Bool.or_eq_true, Bool.and_eq_true, decide_eq_true_eq, beq_iff_eq] at h
  have key : ∀ b : UInt32, b.toNat < 128 → c.val ≤ b → c.toNat < 128 := by
    intro b hb hle
    have h1 : c.val.toNat ≤ b.toNat := hle
    show c.val.toNat < 128
    omega
  rcases h with ((⟨_, h⟩ | ⟨_, h⟩) | ⟨_, h⟩) | h
  · exact key 90 (by decide) h
  · exact key 122 (by decide) h
  · exact key 57 (by decide) h
  · subst h; decide

theorem toLower_word (c : Char) (h : isWordChar c = true) :
    isWordChar c.toLower = true ∧ c.toLower.isUpper = false := by
  have hlt := isWordChar_lt c h
  have e : c = Char.ofNat c.toNat := (Char.ofNat_toNat c).symm
  have := ascii_toLower_word ⟨c.toNat, hlt⟩
  simp only at this
  rw [← e] at this
  exact this h

theorem mem_setInsert (w k : String) (m : List String) : w ∈ setInsert k m ↔ w = k ∨ w ∈ m := by
  unfold setInsert
  by_cases h : k ∈ m
  · rw [if_pos h]
    constructor
    · exact Or.inr
    · rintro (rfl | h1)
      · exact h
      · exact h1
  · rw [if_neg h]
    simp [or_comm]

theorem setInsert_nodup (k : String) (m : List String) (h : m.Nodup) : (setInsert k m).Nodup := by
  unfold setInsert
  by_cases hk : k ∈ m
  · rw [if_pos hk]; exact h
  · rw [if_neg hk]
    exact List.Nodup.append h (List.nodup_singleton k) (by simpa using hk)

theorem mem_addWords (w : String) (ws : List String) :
    ∀ p : webPage, w ∈ (addWords p ws).words ↔
      w ∈ p.words ∨ ∃ x ∈ ws, x ≠ "" ∧ w = ToLower x := by
  induction ws with
  | nil => intro p; simp [addWords]
  | cons a ws ih =>
    intro p
    unfold addWords
    by_cases h : a ≠ ""
    · rw [if_pos h, ih]
      simp only [mem_setInsert, List.mem_cons, exists_eq_or_imp]
      constructor
      · rintro ((h1 | h1) | h1)
        · exact Or.inr (Or.inl ⟨h, h1⟩)
        · exact Or.inl h1
        · exact Or.inr (Or.inr h1)
      · rintro (h1 | ⟨_, h1⟩ | h1)
        · exact Or.inl (Or.inr h1)
        · exact Or.inl (Or.inl h1)
        · exact Or.inr h1
    · rw [if_neg h, ih]
      simp only [List.mem_cons, exists_eq_or_imp]
      constructor
      · rintro (h1 | h1)
        · exact Or.inl h1
        · exact Or.inr (Or.inr h1)
      · rintro (h1 | ⟨h2, _⟩ | h1)
        · exact Or.inl h1
        · exact absurd h2 h
        · exact Or.inr h1

theorem addWords_nodup (ws : List String) :
    ∀ p : webPage, p.words.Nodup → (addWords p ws).words.Nodup := by
  induction ws with
  | nil => intro p h; exact h
  | cons a ws ih =>
    intro p h
    unfold addWords
    split
    · exact ih _ (setInsert_nodup _ _ h)
    · exact ih _ h

theorem recordingAfter_cons (r : Bool) (tok : Token) (pre : List Token) :
    recordingAfter r (tok :: pre) = recordingAfter (recordingAfter r [tok]) pre := by
  cases tok <;> rfl

theorem stored_nil (r : Bool) (w : String) : ¬ Stored r [] w := by
  rintro ⟨pre, raw, post, h, _⟩
  cases pre <;> simp at h

theorem stored_cons (r : Bool) (tok : Token) (rest : List Token) (w : String) :
    Stored r (tok :: rest) w ↔
      (r = true ∧ ∃ raw, tok = Token.TextToken raw ∧ ∃ x ∈ splitExprSplit raw, x ≠ "" ∧ w = ToLower x)
      ∨ (isErrorToken tok = false ∧ Stored (recordingAfter r [tok]) rest w) := by
  constructor
  · rintro ⟨pre, raw, post, h, hpre, hr, hx⟩
    cases pre with
    | nil =>
      simp only [List.nil_append, List.cons.injEq] at h
      exact Or.inl ⟨hr, raw, h.1, hx⟩
    | cons t pre =>
      simp only [List.cons_append, List.cons.injEq] at h
      obtain ⟨rfl, rfl⟩ := h
      refine Or.inr ⟨hpre tok (List.mem_cons_self _ _), pre, raw, post, rfl,
        fun t ht => hpre t (List.mem_cons_of_mem _ ht), ?_, hx⟩
      rw [← recordingAfter_cons]; exact hr
  · rintro (⟨hr, raw, rfl, hx⟩ | ⟨he, pre, raw, post, rfl, hpre, hr, hx⟩)
    · exact ⟨[], raw, rest, rfl, by simp, hr, hx⟩
    · refine ⟨tok :: pre, raw, post, rfl, ?_, ?_, hx⟩
      · intro t ht
        rcases List.mem_cons.1 ht with rfl | ht
        · exact he
        · exact hpre t ht
      · rw [recordingAfter_cons]; exact hr

theorem mem_buildIndexLoop_words (w : String) (evs : List Token) :
    ∀ (r : Bool) (c : webPage),
      w ∈ (buildIndexLoop evs r c).words ↔ w ∈ c.words ∨ Stored r evs w := by
  induction evs with
  | nil => intro r c; simp [buildIndexLoop, stored_nil]
  | cons tok rest ih =>
    intro r c
    rw [stored_cons]
    cases tok with
    | ErrorToken e => simp [buildIndexLoop, isErrorToken]
    | TextToken raw =>
      simp only [buildIndexLoop]
      cases r with
      | true =>
        simp only [↓reduceIte, ih, mem_addWords, Token.TextToken.injEq, exists_eq_left',
          true_and, isErrorToken, recordingAfter]
        generalize (∃ x ∈ splitExprSplit raw, x ≠ "" ∧ w = ToLower x) = P
        tauto
      | false =>
        simp [ih, isErrorToken, recordingAfter]
    | StartTagToken tag attrs =>
      simp only [buildIndexLoop]
      by_cases h : tag = "a" ∧ attrs ≠ []
      · have hs : ¬ tag = "script" := by rw [h.1]; decide
        simp [h, ih, isErrorToken, recordingAfter]
      · rw [if_neg h]
        by_cases hs : tag = "script"
        · simp [hs, ih, isErrorToken, recordingAfter]
        · simp [hs, ih, isErrorToken, recordingAfter]
    | EndTagToken tag =>
      simp only [buildIndexLoop]
      by_cases hs : tag = "script"
      · simp [hs, ih, isErrorToken, recordingAfter]
      · simp [hs, ih, isErrorToken, recordingAfter]
    | SelfClosingTagToken tag attrs => simp [buildIndexLoop, ih, isErrorToken, recordingAfter]
    | CommentToken raw => simp [buildIndexLoop, ih, isErrorToken, recordingAfter]
    | DoctypeToken raw => simp [buildIndexLoop, ih, isErrorToken, recordingAfter]

theorem buildIndexLoop_nodup (evs : List Token) :
    ∀ (r : Bool) (c : webPage), c.words.Nodup → (buildIndexLoop evs r c).words.Nodup := by
  induction evs with
  | nil => intro r c h; exact h
  | cons tok rest ih =>
    intro r c h
    cases tok <;> simp only [buildIndexLoop] <;> repeat' split
    all_goals first
      | exact h
      | exact ih _ _ h
      | exact ih _ _ (addWords_nodup _ _ h)

theorem stored_token_iff (raw w : String) :
    (∃ x ∈ splitExprSplit raw, x ≠ "" ∧ w = ToLower x) ↔
      ∃ run, MaximalWordRun run raw.data ∧ w = String.mk (run.map Char.toLower) := by
  have hsep : ∀ c : Char, ((!isWordChar c) = false) = (isWordChar c = true) := by
    intro c; cases isWordChar c <;> simp
  have hsep1 : ∀ c : Char, ((!isWordChar c) = true) = (isWordChar c = false) := by
    intro c; cases isWordChar c <;> simp
  constructor
  · rintro ⟨x, hx, hne, rfl⟩
    obtain ⟨cs, hcs, rfl⟩ := List.mem_map.1 hx
    have hcs1 := (mem_splitOnP_iff _ _ _).1 hcs
    simp only [hsep, hsep1] at hcs1
    refine ⟨cs, ⟨?_, hcs1.1, hcs1.2⟩, rfl⟩
    rintro rfl
    exact hne rfl
  · rintro ⟨run, ⟨hne, hall, hab⟩, rfl⟩
    refine ⟨String.mk run, List.mem_map.2 ⟨run, ?_, rfl⟩, ?_, rfl⟩
    · refine (mem_splitOnP_iff _ _ _).2 ?_
      simp only [hsep, hsep1]
      exact ⟨hall, hab⟩
    · intro h
      exact hne (congrArg String.data h)

theorem stored_iff (evs : List Token) (w : String) :
    Stored true evs w ↔
      ∃ raw run, RecordedText evs raw ∧ MaximalWordRun run raw.data
        ∧ w = String.mk (run.map Char.toLower) := by
  constructor
  · rintro ⟨pre, raw, post, h, hpre, hr, hx⟩
    obtain ⟨run, hrun, hw⟩ := (stored_token_iff raw w).1 hx
    exact ⟨raw, run, ⟨pre, post, h, hpre, hr⟩, hrun, hw⟩
  · rintro ⟨raw, run, ⟨pre, post, h, hpre, hr⟩, hrun, hw⟩
    exact ⟨pre, raw, post, h, hpre, hr, (stored_token_iff raw w).2 ⟨run, hrun, hw⟩⟩

theorem buildIndexLoop_words_congr (evs : List Token) :
    ∀ (r : Bool) (c c1 : webPage), c.words = c1.words →
      (buildIndexLoop evs r c).words = (buildIndexLoop evs r c1).words := by
  induction evs with
  | nil => intro r c c1 h; exact h
  | cons tok rest ih =>
    intro r c c1 h
    have haw : ∀ ws, (addWords c ws).words = (addWords c1 ws).words := by
      intro ws
      induction ws generalizing c c1 with
      | nil => exact h
      | cons a ws ihw =>
        unfold addWords
        split
        · exact ihw _ _ (by simp [h])
        · exact ihw _ _ h
    cases tok <;> simp only [buildIndexLoop] <;> repeat' split
    all_goals first
      | exact h
      | exact ih _ _ _ h
      | exact ih _ _ _ (haw _)

/-- Inside a script block (flag cleared, no end tag `script` and no error
before the closing tag) nothing is stored. -/
theorem buildIndexLoop_script_block (mid rest : List Token)
    (hmid : ∀ t ∈ mid, isErrorToken t = false ∧ t ≠ Token.EndTagToken "script") :
    ∀ c : webPage,
      (buildIndexLoop (mid ++ Token.EndTagToken "script" :: rest) false c).words
        = (buildIndexLoop rest true c).words := by
  induction mid with
  | nil => intro c; simp [buildIndexLoop]
  | cons tok mid ih =>
    intro c
    have ih1 := ih (fun t ht => hmid t (List.mem_cons_of_mem _ ht))
    have htok := hmid tok (List.mem_cons_self _ _)
    cases tok with
    | ErrorToken e => simp [isErrorToken] at htok
    | TextToken raw => simp [buildIndexLoop, ih1]
    | StartTagToken tag attrs =>
      simp only [List.cons_append, buildIndexLoop]
      split
      · exact (ih1 _).trans (buildIndexLoop_words_congr _ _ _ _ rfl)
      · split <;> exact ih1 c
    | EndTagToken tag =>
      have hs : ¬ tag = "script" := fun e => htok.2 (by rw [e])
      simp [buildIndexLoop, hs, ih1]
    | SelfClosingTagToken tag attrs => simp [buildIndexLoop, ih1]
    | CommentToken raw => simp [buildIndexLoop, ih1]
    | DoctypeToken raw => simp [buildIndexLoop, ih1]

/-- C8: the word set of the page built by `buildIndex` is exactly the set of
lower-cased maximal runs of word characters `[0-9A-Za-z_]` of the text tokens
read while the recording flag is true (it starts true, a start tag `script`
clears it, an end tag `script` sets it).  Every stored word is non-empty, made
of word characters and free of upper-case letters, and is stored once.  The
tokens from a start tag `script` to the next end tag `script` store nothing,
while text before and after the block is stored. -/
theorem buildIndex_words (evs : List Token) (uri : String) :
    buildIndex (fun _ => some evs) uri = some (buildIndexLoop evs true (emptyPage uri))
    ∧ (∀ w : String, w ∈ (buildIndexLoop evs true (emptyPage uri)).words ↔
        ∃ raw run, RecordedText evs raw ∧ MaximalWordRun run raw.data
          ∧ w = String.mk (run.map Char.toLower))
    ∧ (∀ w ∈ (buildIndexLoop evs true (emptyPage uri)).words,
        w ≠ "" ∧ ∀ c ∈ w.data, isWordChar c = true ∧ c.isUpper = false)
    ∧ (buildIndexLoop evs true (emptyPage uri)).words.Nodup
    ∧ (∀ (attrs : List (String × String)) (mid rest : List Token) (r : Bool) (c : webPage),
        (∀ t ∈ mid, isErrorToken t = false ∧ t ≠ Token.EndTagToken "script") →
        (buildIndexLoop (Token.StartTagToken "script" attrs :: mid
            ++ Token.EndTagToken "script" :: rest) r c).words
          = (buildIndexLoop rest true c).words)
    ∧ (buildIndexLoop
        [Token.TextToken "Hello, World!", Token.StartTagToken "script" [],
         Token.TextToken "var hidden = 1;", Token.EndTagToken "script",
         Token.TextToken "bye_now 42 hello"] true (emptyPage uri)).words
        = ["hello", "world", "bye_now", "42"] := by
  have hmem : ∀ w : String, w ∈ (buildIndexLoop evs true (emptyPage uri)).words ↔
      ∃ raw run, RecordedText evs raw ∧ MaximalWordRun run raw.data
        ∧ w = String.mk (run.map Char.toLower) := by
    intro w
    rw [mem_buildIndexLoop_words, ← stored_iff]
    simp [emptyPage]
  refine ⟨rfl, hmem, ?_, ?_, ?_, ?_⟩
  · intro w hw
    obtain ⟨raw, run, _, ⟨hne, hall, _⟩, rfl⟩ := (hmem w).1 hw
    refine ⟨?_, ?_⟩
    · intro h
      have h1 := congrArg String.data h
      simp only [List.map_eq_nil_iff] at h1
      exact hne h1
    · intro c hc
      obtain ⟨d, hd, rfl⟩ := List.mem_map.1 hc
      exact toLower_word d (hall d hd)
  · exact buildIndexLoop_nodup evs true _ (by simp [emptyPage])
  · intro attrs mid rest r c hmid
    have hs : ¬ ("script" = "a" ∧ attrs ≠ []) := by
      rintro ⟨h, _⟩; exact absurd h (by decide)
    simp only [List.cons_append, buildIndexLoop, hs, ↓reduceIte]
    exact buildIndexLoop_script_block mid rest hmid c
  · rw [buildIndexLoop_words_congr _ true (emptyPage uri) (emptyPage "") rfl]
    decide

theorem buildIndex_words_witness :
    (buildIndexLoop (Token.StartTagToken "script" [] :: [Token.TextToken "var x"]
        ++ Token.EndTagToken "script" :: [Token.TextToken "y"]) true (emptyPage "u")).words
      = (buildIndexLoop [Token.TextToken "y"] true (emptyPage "u")).words :=
  (buildIndex_words [] "u").2.2.2.2.1 [] [Token.TextToken "var x"] [Token.TextToken "y"] true
    (emptyPage "u") (by decide)

/-! ## The crawl coordinator: invariants -/

theorem mem_updateTasks (tasks : List Task) (i : Nat) (e : Effect) (x : Task)
    (h : x ∈ updateTasks tasks i e) : x ∈ tasks ∨ e.next = some x ∨ x ∈ e.spawned := by
  unfold updateTasks at h
  rcases List.mem_append.1 h with h1 | h1
  · cases hn : e.next with
    | none =>
      rw [hn] at h1
      exact Or.inl (List.mem_of_mem_eraseIdx h1)
    | some t =>
      rw [hn] at h1
      rcases List.mem_or_eq_of_mem_set h1 with h2 | h2
      · exact Or.inl h2
      · exact Or.inr (Or.inl (by rw [h2]))
  · exact Or.inr (Or.inr h1)

theorem mem_updateTasks_of_spawned (tasks : List Task) (i : Nat) (e : Effect) (x : Task)
    (h : x ∈ e.spawned) : x ∈ updateTasks tasks i e :=
  List.mem_append.2 (Or.inr h)

theorem mem_updateTasks_of_next (tasks : List Task) (i : Nat) (e : Effect) (t x : Task)
    (ht : tasks[i]? = some t) (h : e.next = some x) : x ∈ updateTasks tasks i e := by
  unfold updateTasks
  rw [h]
  refine List.mem_append.2 (Or.inl ?_)
  have hi : i < tasks.length := by
    rcases Nat.lt_or_ge i tasks.length with h1 | h1
    · exact h1
    · rw [List.getElem?_eq_none h1] at ht; cases ht
  exact List.mem_set _ _ hi _

theorem mem_updateTasks_of_mem (tasks : List Task) (i : Nat) (e : Effect) (x : Task)
    (h : x ∈ tasks) : x ∈ updateTasks tasks i e ∨ tasks[i]? = some x := by
  obtain ⟨j, hj, rfl⟩ := List.mem_iff_getElem.1 h
  by_cases hij : j = i
  · subst hij
    exact Or.inr (List.getElem?_eq_getElem hj)
  · refine Or.inl (List.mem_append.2 (Or.inl ?_))
    cases e.next with
    | none =>
      simp only
      rw [List.mem_iff_getElem?]
      rcases Nat.lt_or_gt_of_ne hij with hlt | hgt
      · exact ⟨j, by rw [List.getElem?_eraseIdx_of_lt _ _ _ hlt, List.getElem?_eq_getElem hj]⟩
      · obtain ⟨k, rfl⟩ : ∃ k, j = k + 1 := ⟨j - 1, by omega⟩
        exact ⟨k, by rw [List.getElem?_eraseIdx_of_ge _ _ _ (by omega), List.getElem?_eq_getElem hj]⟩
    | some t =>
      simp only
      rw [List.mem_iff_getElem?]
      exact ⟨j, by rw [List.getElem?_set_ne (Ne.symm hij), List.getElem?_eq_getElem hj]⟩

theorem step_inv {fetch : String → Option (List Token)} {domains : List String}
    {P : Task → Prop} {Q : String → Prop} (hloc : LocalInv fetch domains P Q)
    (i : Nat) (s : State) (h : Inv P Q s) : Inv P Q (step fetch domains i s) := by
  unfold step
  by_cases hp : s.panicked = true
  · rw [if_pos hp]; exact h
  · rw [if_neg hp]
    cases ht : s.tasks[i]? with
    | none => exact h
    | some t =>
      have htm : t ∈ s.tasks := List.getElem?_mem ht
      obtain ⟨h1, h2, h3⟩ := hloc s.crawled t h.1 (h.2 t htm)
      refine ⟨h1, fun x hx => ?_⟩
      rcases mem_updateTasks _ _ _ _ hx with hx1 | hx1 | hx1
      · exact h.2 x hx1
      · exact h2 x hx1
      · exact h3 x hx1

theorem run_inv {fetch : String → Option (List Token)} {domains : List String}
    {P : Task → Prop} {Q : String → Prop} (hloc : LocalInv fetch domains P Q)
    (sched : List Nat) : ∀ s : State, Inv P Q s → Inv P Q (run fetch domains sched s) := by
  induction sched with
  | nil => intro s h; exact h
  | cons i sched ih => intro s h; exact ih _ (step_inv hloc i s h)

theorem allowed_local (fetch : String → Option (List Token)) (seeds domains : List String) :
    LocalInv fetch domains (allowedTask seeds domains)
      (fun u => u ∈ seeds ∨ validDomain u domains = true) := by
  intro crawled t hQ hP
  cases t with
  | seeding rest d =>
    cases rest with
    | nil => exact ⟨hQ, by simp [act], by simp [act]⟩
    | cons u rest =>
      refine ⟨hQ, ?_, ?_⟩
      · intro x hx
        simp only [act, Option.some.injEq] at hx
        subst hx
        exact fun v hv => hP v (List.mem_cons_of_mem _ hv)
      · intro x hx
        simp only [act, List.mem_singleton] at hx
        subst hx
        exact Or.inl (hP u (List.mem_cons_self _ _))
  | crawl u d =>
    cases hb : buildIndex fetch u with
    | none => simp only [act, hb]; exact ⟨hQ, by simp, by simp⟩
    | some c =>
      simp only [act, hb]
      refine ⟨hQ, ?_, by simp⟩
      intro x hx
      simp only [Option.some.injEq] at hx
      subst hx
      show c.uri ∈ seeds ∨ validDomain c.uri domains = true
      rw [buildIndex_uri fetch u c hb]
      exact hP
  | fetched c d =>
    refine ⟨?_, ?_, by simp [act]⟩
    · intro u hu
      simp only [act, mem_setInsert] at hu
      rcases hu with rfl | hu
      · exact hP
      · exact hQ u hu
    · intro x hx
      simp only [act, Option.some.injEq] at hx
      subst hx
      trivial
  | ranging c d rest =>
    cases rest with
    | nil => exact ⟨hQ, by simp [act], by simp [act]⟩
    | cons next rest =>
      cases hr : resolve c.uri next with
      | none =>
        simp only [act, hr]
        refine ⟨hQ, ?_, by simp⟩
        intro x hx
        simp only [Option.some.injEq] at hx
        subst hx
        trivial
      | some n =>
        simp only [act, hr]
        by_cases hv : (validDomain n domains && !(crawled.contains n)) = true
        · rw [if_pos hv]
          refine ⟨hQ, ?_, ?_⟩
          · intro x hx
            simp only [Option.some.injEq] at hx
            subst hx
            trivial
          · intro x hx
            simp only [List.mem_singleton] at hx
            subst hx
            simp only [Bool.and_eq_true] at hv
            exact Or.inr hv.1
        · rw [if_neg hv]
          refine ⟨hQ, ?_, by simp⟩
          intro x hx
          simp only [Option.some.injEq] at hx
          subst hx
          trivial

/-! ## The join counter and termination -/

theorem sum_set (f : Task → Nat) (tasks : List Task) :
    ∀ (i : Nat) (t x : Task), tasks[i]? = some t →
      ((tasks.set i x).map f).sum + f t = (tasks.map f).sum + f x := by
  induction tasks with
  | nil => intro i t x h; simp at h
  | cons a tasks ih =>
    intro i t x h
    cases i with
    | zero =>
      simp only [List.getElem?_cons_zero, Option.some.injEq] at h
      subst h
      simp only [List.set_cons_zero, List.map_cons, List.sum_cons]
      omega
    | succ i =>
      simp only [List.getElem?_cons_succ] at h
      have := ih i t x h
      simp only [List.set_cons_succ, List.map_cons, List.sum_cons]
      omega

theorem sum_eraseIdx (f : Task → Nat) (tasks : List Task) :
    ∀ (i : Nat) (t : Task), tasks[i]? = some t →
      ((tasks.eraseIdx i).map f).sum + f t = (tasks.map f).sum := by
  induction tasks with
  | nil => intro i t h; simp at h
  | cons a tasks ih =>
    intro i t h
    cases i with
    | zero =>
      simp only [List.getElem?_cons_zero, Option.some.injEq] at h
      subst h
      simp only [List.eraseIdx_cons_zero, List.map_cons, List.sum_cons]
      omega
    | succ i =>
      simp only [List.getElem?_cons_succ] at h
      have := ih i t h
      simp only [List.eraseIdx_cons_succ, List.map_cons, List.sum_cons]
      omega

theorem sum_updateTasks (f : Task → Nat) (tasks : List Task) (i : Nat) (e : Effect) (t : Task)
    (ht : tasks[i]? = some t) :
    ((updateTasks tasks i e).map f).sum + f t =
      (tasks.map f).sum + (e.next.toList.map f).sum + (e.spawned.map f).sum := by
  unfold updateTasks
  cases hn : e.next with
  | none =>
    have := sum_eraseIdx f tasks i t ht
    simp only [List.map_append, List.sum_append, Option.toList, List.map_nil, List.sum_nil]
    omega
  | some x =>
    have := sum_set f tasks i t x ht
    simp only [List.map_append, List.sum_append, Option.toList, List.map_cons, List.map_nil,
      List.sum_cons, List.sum_nil]
    omega

theorem act_counted (fetch : String → Option (List Token)) (domains crawled : List String)
    (t : Task) :
    (act fetch domains crawled t).wg + (counted t : Int) =
      (((act fetch domains crawled t).next.toList.map counted).sum : Nat)
        + (((act fetch domains crawled t).spawned.map counted).sum : Nat) := by
  cases t with
  | seeding rest d => cases rest <;> simp [act, counted, Option.toList]
  | crawl u d => simp only [act]; split <;> simp [counted, Option.toList]
  | fetched c d => simp [act, counted, Option.toList]
  | ranging c d rest =>
    cases rest with
    | nil => simp [act, counted, Option.toList]
    | cons next rest =>
      simp only [act]
      split
      · simp [counted, Option.toList]
      · split <;> simp [counted, Option.toList]

/-- The `WaitGroup` counter is the number of live `crawl` goroutines. -/
theorem step_wg (fetch : String → Option (List Token)) (domains : List String) (i : Nat)
    (s : State) (h : s.wg = ((s.tasks.map counted).sum : Nat)) :
    (step fetch domains i s).wg = (((step fetch domains i s).tasks.map counted).sum : Nat) := by
  unfold step
  by_cases hp : s.panicked = true
  · rw [if_pos hp]; exact h
  · rw [if_neg hp]
    cases ht : s.tasks[i]? with
    | none => exact h
    | some t =>
      have h1 := sum_updateTasks counted s.tasks i (act fetch domains s.crawled t) t ht
      have h2 := act_counted fetch domains s.crawled t
      simp only
      omega

theorem run_wg (fetch : String → Option (List Token)) (domains : List String)
    (sched : List Nat) :
    ∀ s : State, s.wg = ((s.tasks.map counted).sum : Nat) →
      (run fetch domains sched s).wg = (((run fetch domains sched s).tasks.map counted).sum : Nat) := by
  induction sched with
  | nil => intro s h; exact h
  | cons i sched ih => intro s h; exact ih _ (step_wg fetch domains i s h)

theorem finished_iff (s : State) (h : s.wg = ((s.tasks.map counted).sum : Nat)) :
    finished s = true ↔ s.tasks = [] ∧ s.panicked = false := by
  unfold finished
  constructor
  · intro hf
    simp only [Bool.and_eq_true, Bool.not_eq_true', beq_iff_eq, List.any_eq_false] at hf
    obtain ⟨⟨hs, hw⟩, hp⟩ := hf
    refine ⟨?_, hp⟩
    rw [hw] at h
    have h0 : (s.tasks.map counted).sum = 0 := by exact_mod_cast h.symm
    cases hts : s.tasks with
    | nil => rfl
    | cons t ts =>
      rw [hts] at h0 hs
      have ht := hs t (List.mem_cons_self _ _)
      simp only [List.map_cons, List.sum_cons] at h0
      cases t with
      | seeding rest d => simp [isSeeding] at ht
      | crawl u d => simp [counted] at h0
      | fetched c d => simp [counted] at h0
      | ranging c d rest => simp [counted] at h0
  · rintro ⟨ht, hp⟩
    rw [ht] at h
    simp only [List.map_nil, List.sum_nil, Nat.cast_zero] at h
    simp [ht, hp, h]

theorem crawlWeight_eq (fetch : String → Option (List Token)) (d : Int) (u : String) :
    crawlWeight fetch d.toNat u =
      1 + match buildIndex fetch u with
        | none => 0
        | some c => weight fetch (Task.fetched c d) := by
  cases hb : buildIndex fetch u with
  | none => cases hn : d.toNat <;> simp [crawlWeight, hb]
  | some c =>
    cases hn : d.toNat with
    | zero =>
      have hd : ¬ d > 0 := by omega
      simp [crawlWeight, hb, weight, hd]
    | succ n =>
      have hd : d > 0 := by omega
      have hn1 : (d - 1).toNat = n := by omega
      have hl : linkWeight fetch c.uri (d - 1) = fun l =>
          1 + match resolve c.uri l with
            | none => 0
            | some v => crawlWeight fetch n v := by
        funext l; simp only [linkWeight, hn1]
      simp only [crawlWeight, hb, weight, hd, ↓reduceIte, hl]

theorem act_weight (fetch : String → Option (List Token)) (domains crawled : List String)
    (t : Task) (hp : (act fetch domains crawled t).panic = false) :
    ((act fetch domains crawled t).next.toList.map (weight fetch)).sum
      + ((act fetch domains crawled t).spawned.map (weight fetch)).sum < weight fetch t := by
  cases t with
  | seeding rest d =>
    cases rest with
    | nil => simp [act, weight, Option.toList]
    | cons u rest => simp [act, weight, Option.toList]; omega
  | crawl u d =>
    have h := crawlWeight_eq fetch d u
    cases hb : buildIndex fetch u with
    | none => rw [hb] at h; simp [act, hb, weight, Option.toList, h]
    | some c =>
      rw [hb] at h
      simp only [act, hb, Option.toList, List.map_cons, List.map_nil, List.sum_cons,
        List.sum_nil, Nat.add_zero]
      change _ < crawlWeight fetch d.toNat u
      rw [h]
      simp only
      omega
  | fetched c d => simp [act, weight, Option.toList]
  | ranging c d rest =>
    cases rest with
    | nil => simp [act, weight, Option.toList]
    | cons next rest =>
      cases hr : resolve c.uri next with
      | none => simp [act, hr] at hp
      | some v =>
        simp only [act, hr]
        split
        · simp only [weight, Option.toList, linkWeight, hr, List.map_cons, List.map_nil,
            List.sum_cons, List.sum_nil]
          omega
        · simp only [weight, Option.toList, linkWeight, hr, List.map_cons, List.map_nil,
            List.sum_cons, List.sum_nil]
          omega

/-- A live goroutine that acts without panicking lowers the total weight. -/
theorem step_weight (fetch : String → Option (List Token)) (domains : List String) (i : Nat)
    (s : State) (t : Task) (hp : s.panicked = false) (ht : s.tasks[i]? = some t)
    (hp1 : (step fetch domains i s).panicked = false) :
    ((step fetch domains i s).tasks.map (weight fetch)).sum < (s.tasks.map (weight fetch)).sum := by
  have hstep : step fetch domains i s =
      { crawled := (act fetch domains s.crawled t).crawled,
        wg := s.wg + (act fetch domains s.crawled t).wg,
        tasks := updateTasks s.tasks i (act fetch domains s.crawled t),
        panicked := (act fetch domains s.crawled t).panic } := by
    simp [step, hp, ht]
  rw [hstep] at hp1 ⊢
  have h1 := sum_updateTasks (weight fetch) s.tasks i (act fetch domains s.crawled t) t ht
  have h2 := act_weight fetch domains s.crawled t hp1
  simp only
  omega

/-- From every state some schedule ends the run: all goroutines have
returned, or one has panicked. -/
theorem run_can_end (fetch : String → Option (List Token)) (domains : List String) :
    ∀ (n : Nat) (s : State), (s.tasks.map (weight fetch)).sum ≤ n →
      ∃ sched, (run fetch domains sched s).tasks = [] ∨ (run fetch domains sched s).panicked = true := by
  intro n
  induction n with
  | zero =>
    intro s hn
    cases hts : s.tasks with
    | nil => exact ⟨[], Or.inl hts⟩
    | cons t ts =>
      by_cases hp : s.panicked = true
      · exact ⟨[], Or.inr hp⟩
      · have hp0 : s.panicked = false := by simpa using hp
        have ht : s.tasks[0]? = some t := by simp [hts]
        by_cases hp1 : (step fetch domains 0 s).panicked = true
        · exact ⟨[0], Or.inr hp1⟩
        · have := step_weight fetch domains 0 s t hp0 ht (by simpa using hp1)
          omega
  | succ n ih =>
    intro s hn
    cases hts : s.tasks with
    | nil => exact ⟨[], Or.inl hts⟩
    | cons t ts =>
      by_cases hp : s.panicked = true
      · exact ⟨[], Or.inr hp⟩
      · have hp0 : s.panicked = false := by simpa using hp
        have ht : s.tasks[0]? = some t := by simp [hts]
        by_cases hp1 : (step fetch domains 0 s).panicked = true
        · exact ⟨[0], Or.inr hp1⟩
        · have hlt := step_weight fetch domains 0 s t hp0 ht (by simpa using hp1)
          obtain ⟨sched, hs⟩ := ih (step fetch domains 0 s) (by omega)
          exact ⟨0 :: sched, hs⟩

theorem run_append (fetch : String → Option (List Token)) (domains : List String)
    (a b : List Nat) : ∀ s : State,
      run fetch domains (a ++ b) s = run fetch domains b (run fetch domains a s) := by
  induction a with
  | nil => intro s; rfl
  | cons i a ih => intro s; exact ih _

theorem init_wg (depth : Int) (seeds : List String) :
    (crawlDomainsAt depth seeds).wg = (((crawlDomainsAt depth seeds).tasks.map counted).sum : Nat) := by
  simp [crawlDomainsAt, counted]

theorem act_crawled_mono (fetch : String → Option (List Token)) (domains crawled : List String)
    (t : Task) (u : String) (h : u ∈ crawled) : u ∈ (act fetch domains crawled t).crawled := by
  cases t with
  | seeding rest d => cases rest <;> exact h
  | crawl v d => simp only [act]; split <;> exact h
  | fetched c d => exact (mem_setInsert _ _ _).2 (Or.inr h)
  | ranging c d rest =>
    cases rest with
    | nil => exact h
    | cons next rest => simp only [act]; split <;> [exact h; (split <;> exact h)]

theorem act_targets (fetch : String → Option (List Token)) (domains crawled : List String)
    (t : Task) (u : String) (hf : fetch u ≠ none) (ht : targets u t) :
    u ∈ (act fetch domains crawled t).crawled
    ∨ (∃ x, (act fetch domains crawled t).next = some x ∧ targets u x)
    ∨ ∃ x ∈ (act fetch domains crawled t).spawned, targets u x := by
  cases t with
  | seeding rest d =>
    cases rest with
    | nil => simp [targets] at ht
    | cons v rest =>
      rcases List.mem_cons.1 ht with rfl | h1
      · exact Or.inr (Or.inr ⟨Task.crawl u d, by simp [act], rfl⟩)
      · exact Or.inr (Or.inl ⟨Task.seeding rest d, by simp [act], h1⟩)
  | crawl v d =>
    have hv : v = u := ht
    subst hv
    cases hb : buildIndex fetch v with
    | none => exact absurd ((buildIndex_eq_none fetch v).1 hb) hf
    | some c =>
      refine Or.inr (Or.inl ⟨Task.fetched c d, by simp [act, hb], ?_⟩)
      exact buildIndex_uri fetch v c hb
  | fetched c d =>
    have hv : c.uri = u := ht
    exact Or.inl ((mem_setInsert _ _ _).2 (Or.inl hv.symm))
  | ranging c d rest => exact absurd ht (by simp [targets])

theorem step_pending (fetch : String → Option (List Token)) (domains : List String)
    (u : String) (hf : fetch u ≠ none) (i : Nat) (s : State) (h : Pending u s) :
    Pending u (step fetch domains i s) := by
  unfold step
  by_cases hp : s.panicked = true
  · rw [if_pos hp]; exact h
  · rw [if_neg hp]
    cases ht : s.tasks[i]? with
    | none => exact h
    | some t =>
      rcases h with h | ⟨x, hx, hxt⟩
      · exact Or.inl (act_crawled_mono fetch domains s.crawled t u h)
      · rcases mem_updateTasks_of_mem s.tasks i (act fetch domains s.crawled t) x hx with h1 | h1
        · exact Or.inr ⟨x, h1, hxt⟩
        · rw [ht] at h1
          simp only [Option.some.injEq] at h1
          subst h1
          rcases act_targets fetch domains s.crawled t u hf hxt with h2 | ⟨y, hy, hyt⟩ | ⟨y, hy, hyt⟩
          · exact Or.inl h2
          · exact Or.inr ⟨y, mem_updateTasks_of_next _ _ _ t y ht hy, hyt⟩
          · exact Or.inr ⟨y, mem_updateTasks_of_spawned _ _ _ y hy, hyt⟩

theorem run_pending (fetch : String → Option (List Token)) (domains : List String)
    (u : String) (hf : fetch u ≠ none) (sched : List Nat) :
    ∀ s : State, Pending u s → Pending u (run fetch domains sched s) := by
  induction sched with
  | nil => intro s h; exact h
  | cons i sched ih => intro s h; exact ih _ (step_pending fetch domains u hf i s h)

theorem run_allowed (fetch : String → Option (List Token)) (seeds domains : List String)
    (depth : Int) (sched : List Nat) :
    ∀ u ∈ (run fetch domains sched (crawlDomainsAt depth seeds)).crawled,
      u ∈ seeds ∨ validDomain u domains = true := by
  have h0 : Inv (allowedTask seeds domains) (fun u => u ∈ seeds ∨ validDomain u domains = true)
      (crawlDomainsAt depth seeds) := by
    refine ⟨by simp [crawlDomainsAt], fun t ht => ?_⟩
    simp only [crawlDomainsAt, List.mem_singleton] at ht
    subst ht
    exact fun u hu => hu
  exact (run_inv (allowed_local fetch seeds domains) sched _ h0).1

theorem run_can_finish (fetch : String → Option (List Token)) (domains seeds : List String)
    (depth : Int) (sched : List Nat) :
    ∃ more,
      finished (run fetch domains (sched ++ more) (crawlDomainsAt depth seeds)) = true
      ∨ (run fetch domains (sched ++ more) (crawlDomainsAt depth seeds)).panicked = true := by
  obtain ⟨more, hm⟩ := run_can_end fetch domains _
    (run fetch domains sched (crawlDomainsAt depth seeds)) (Nat.le_refl _)
  refine ⟨more, ?_⟩
  have hw := run_wg fetch domains (sched ++ more) _ (init_wg depth seeds)
  rw [run_append]
  rw [run_append] at hw
  rcases hm with hm | hm
  · by_cases hp : (run fetch domains more
        (run fetch domains sched (crawlDomainsAt depth seeds))).panicked = true
    · exact Or.inr hp
    · exact Or.inl ((finished_iff _ hw).2 ⟨hm, by simpa using hp⟩)
  · exact Or.inr hm

/-- C3: in every state of every run, each URI of the visited set `crawled` is
one of the seeds or satisfies `validDomain`.  Seeds are not tested: a seed
whose fetch succeeds is in the final visited set whatever the domains are.
Every run can be continued to its end (`wg.Wait()` returns, or a goroutine
panics).  In the scenario of the specification `https://other.test/y` is never
visited, and the run finishes. -/
theorem crawl_domain_containment (fetch : String → Option (List Token))
    (seeds domains : List String) (depth : Int) (sched : List Nat) :
    (∀ u ∈ (run fetch domains sched (crawlDomainsAt depth seeds)).crawled,
        u ∈ seeds ∨ validDomain u domains = true)
    ∧ (∀ u ∈ seeds, fetch u ≠ none →
        finished (run fetch domains sched (crawlDomainsAt depth seeds)) = true →
        u ∈ (run fetch domains sched (crawlDomainsAt depth seeds)).crawled)
    ∧ (∃ more,
        finished (run fetch domains (sched ++ more) (crawlDomainsAt depth seeds)) = true
        ∨ (run fetch domains (sched ++ more) (crawlDomainsAt depth seeds)).panicked = true)
    ∧ "https://other.test/y" ∉ (run scenarioFetch scenarioDomains sched scenarioInit).crawled
    ∧ finished (run scenarioFetch scenarioDomains [0, 0, 0, 0, 0, 0, 0, 0, 1, 1, 1, 0, 0, 0]
        scenarioInit) = true := by
  refine ⟨run_allowed fetch seeds domains depth sched, ?_,
    run_can_finish fetch domains seeds depth sched, ?_, by decide⟩
  · intro u hu hf hfin
    have h0 : Pending u (crawlDomainsAt depth seeds) :=
      Or.inr ⟨Task.seeding seeds depth, by simp [crawlDomainsAt], hu⟩
    have hw := run_wg fetch domains sched _ (init_wg depth seeds)
    rcases run_pending fetch domains u hf sched _ h0 with h | ⟨t, ht, _⟩
    · exact h
    · rw [((finished_iff _ hw).1 hfin).1] at ht
      cases ht
  · intro h
    rcases run_allowed scenarioFetch ["https://x.test/start"] scenarioDomains 1 sched _ h with h1 | h1
    · revert h1; decide
    · revert h1; decide

theorem crawl_domain_containment_witness :
    "ftp://seed.test" ∈ (run (fun _ => some []) ["https://x.test"] [0, 0, 0, 0, 0]
      (crawlDomainsAt 2 ["ftp://seed.test"])).crawled :=
  (crawl_domain_containment (fun _ => some []) ["ftp://seed.test"] ["https://x.test"] 2
    [0, 0, 0, 0, 0]).2.1 "ftp://seed.test" (by decide) (by decide) (by decide)

/-! ## The depth boundary and the scenario -/

theorem eraseIdx_set_self (l : List Task) (i : Nat) (a : Task) :
    (l.set i a).eraseIdx i = l.eraseIdx i := by
  induction l generalizing i with
  | nil => rfl
  | cons x l ih =>
    cases i with
    | zero => rfl
    | succ i => simp [List.set, List.eraseIdx, ih]

theorem getElem?_set_self_of_some (l : List Task) (i : Nat) (a b : Task)
    (h : l[i]? = some b) : (l.set i a)[i]? = some a := by
  have hi : i < l.length := by
    rcases Nat.lt_or_ge i l.length with h1 | h1
    · exact h1
    · rw [List.getElem?_eq_none h1] at h; cases h
  simp [List.getElem?_set, hi]

set_option maxRecDepth 1000000 in
theorem scenarioReach_checked_init :
    (scenarioReach.contains scenarioInit && scenarioReach.all scenarioCheck) = true := by
  decide!

theorem scenarioReach_checked : scenarioReach.all scenarioCheck = true :=
  (Bool.and_eq_true _ _ ▸ scenarioReach_checked_init).2

theorem scenarioInit_mem : scenarioInit ∈ scenarioReach := by
  have h := (Bool.and_eq_true _ _ ▸ scenarioReach_checked_init).1
  simpa using h

theorem scenario_step_mem (i : Nat) (s : State) (h : s ∈ scenarioReach) :
    step scenarioFetch scenarioDomains i s ∈ scenarioReach := by
  have hc := (List.all_eq_true.1 scenarioReach_checked) s h
  simp only [scenarioCheck, Bool.and_eq_true] at hc
  by_cases hi : i < s.tasks.length
  · have h1 := (List.all_eq_true.1 hc.1.1) (step scenarioFetch scenarioDomains i s)
      (List.mem_map.2 ⟨i, List.mem_range.2 hi, rfl⟩)
    simpa using h1
  · have h2 : s.tasks[i]? = none := List.getElem?_eq_none (by omega)
    have h3 : step scenarioFetch scenarioDomains i s = s := by
      unfold step
      split
      · rfl
      · rw [h2]
    rw [h3]; exact h

theorem scenario_run_mem (sched : List Nat) :
    ∀ s ∈ scenarioReach, run scenarioFetch scenarioDomains sched s ∈ scenarioReach := by
  induction sched with
  | nil => intro s h; exact h
  | cons i sched ih => intro s h; exact ih _ (scenario_step_mem i s h)

theorem depth_zero_run (fetch : String → Option (List Token)) (domains : List String)
    (u : String) (evs : List Token) (hf : fetch u = some evs) (s : State) (i : Nat)
    (hp : s.panicked = false) (ht : s.tasks[i]? = some (Task.crawl u 0)) :
    run fetch domains [i, i, i] s =
      { crawled := setInsert u s.crawled, wg := s.wg - 1, tasks := s.tasks.eraseIdx i,
        panicked := false } := by
  have hb : buildIndex fetch u = some (buildIndexLoop evs true (emptyPage u)) := by
    simp [buildIndex, hf, emptyPage]
  have hu : (buildIndexLoop evs true (emptyPage u)).uri = u := by
    rw [buildIndexLoop_uri]; rfl
  have h1 : step fetch domains i s =
      { crawled := s.crawled, wg := s.wg,
        tasks := s.tasks.set i (Task.fetched (buildIndexLoop evs true (emptyPage u)) 0),
        panicked := false } := by
    simp [step, hp, ht, act, hb, updateTasks]
  have h2 : step fetch domains i (step fetch domains i s) =
      { crawled := setInsert u s.crawled, wg := s.wg,
        tasks := s.tasks.set i (Task.ranging (buildIndexLoop evs true (emptyPage u)) 0 []),
        panicked := false } := by
    rw [h1]
    simp [step, getElem?_set_self_of_some _ _ _ _ ht, act, updateTasks, hu]
  simp only [run]
  rw [h2]
  simp only [step, Bool.false_eq_true, ↓reduceIte, getElem?_set_self_of_some _ _ _ _ ht, act,
    updateTasks, List.append_nil, eraseIdx_set_self]
  rfl

theorem scenario_props (s : State) (h : s ∈ scenarioReach) :
    "https://x.test/c" ∉ s.crawled
    ∧ (finished s = true →
        s.crawled = ["https://x.test/start", "https://x.test/a", "https://x.test/b"]
        ∨ s.crawled = ["https://x.test/start", "https://x.test/b", "https://x.test/a"]) := by
  have hc := (List.all_eq_true.1 scenarioReach_checked) s h
  simp only [scenarioCheck, Bool.and_eq_true, Bool.or_eq_true, Bool.not_eq_true',
    beq_iff_eq] at hc
  refine ⟨fun hm => ?_, fun hfin => ?_⟩
  · have h1 := hc.1.2
    have h2 : s.crawled.contains "https://x.test/c" = true := by simpa using hm
    rw [h2] at h1
    cases h1
  · rcases hc.2 with (h1 | h1) | h1
    · rw [hfin] at h1; cases h1
    · exact Or.inl h1
    · exact Or.inr h1

theorem scenario_final (sched : List Nat)
    (hfin : finished (run scenarioFetch scenarioDomains sched scenarioInit) = true) (v : String) :
    v ∈ (run scenarioFetch scenarioDomains sched scenarioInit).crawled ↔
      v = "https://x.test/start" ∨ v = "https://x.test/a" ∨ v = "https://x.test/b" := by
  rcases (scenario_props _ (scenario_run_mem sched scenarioInit scenarioInit_mem)).2 hfin
    with h1 | h1
  · rw [h1]; simp only [List.mem_cons, List.mem_singleton, List.not_mem_nil, or_false]
  · rw [h1]; simp only [List.mem_cons, List.mem_singleton, List.not_mem_nil, or_false]
    constructor
    · rintro (h | h | h)
      · exact Or.inl h
      · exact Or.inr (Or.inr h)
      · exact Or.inr (Or.inl h)
    · rintro (h | h | h)
      · exact Or.inl h
      · exact Or.inr (Or.inr h)
      · exact Or.inr (Or.inl h)

theorem scenario_never_c (sched : List Nat) :
    "https://x.test/c" ∉ (run scenarioFetch scenarioDomains sched scenarioInit).crawled :=
  (scenario_props _ (scenario_run_mem sched scenarioInit scenarioInit_mem)).1

theorem scenario_run_zero :
    run scenarioFetch scenarioDomains [0, 0, 0, 0, 0, 0, 0, 0, 0, 0, 0, 0, 0, 0] scenarioInit =
      { crawled := ["https://x.test/start", "https://x.test/a", "https://x.test/b"], wg := 0,
        tasks := [], panicked := false } := by
  decide

theorem stepRacy_some (fetch : String → Option (List Token)) (domains : List String)
    (m : Move) (s s1 : State) (h : stepRacy fetch domains m s = some s1) :
    ∃ sched, s1 = run fetch domains sched s := by
  cases m with
  | alone i =>
    simp only [stepRacy, Option.some.injEq] at h
    exact ⟨[i], h.symm⟩
  | overlap i j =>
    refine ⟨[], ?_⟩
    simp only [stepRacy] at h
    split at h
    · simp only [Option.some.injEq] at h; exact h.symm
    · split at h
      · split at h
        · cases h
        · simp only [Option.some.injEq] at h; exact h.symm
      · simp only [Option.some.injEq] at h; exact h.symm

/-- A sequence of moves that the process survives is a schedule of `run`. -/
theorem runRacy_some (fetch : String → Option (List Token)) (domains : List String)
    (moves : List Move) :
    ∀ s s1 : State, runRacy fetch domains moves s = some s1 →
      ∃ sched, s1 = run fetch domains sched s := by
  induction moves with
  | nil =>
    intro s s1 h
    simp only [runRacy, Option.some.injEq] at h
    exact ⟨[], h.symm⟩
  | cons m moves ih =>
    intro s s1 h
    simp only [runRacy] at h
    cases hm : stepRacy fetch domains m s with
    | none => rw [hm] at h; cases h
    | some s2 =>
      rw [hm] at h
      obtain ⟨sched1, h1⟩ := stepRacy_some fetch domains m s s2 hm
      obtain ⟨sched2, h2⟩ := ih s2 s1 h
      exact ⟨sched1 ++ sched2, by rw [run_append, ← h1, h2]⟩

theorem runRacy_alone (fetch : String → Option (List Token)) (domains : List String)
    (sched : List Nat) :
    ∀ s : State, runRacy fetch domains (sched.map Move.alone) s
      = some (run fetch domains sched s) := by
  induction sched with
  | nil => intro s; rfl
  | cons i sched ih => intro s; simp only [List.map_cons, runRacy, stepRacy, run, ih]

theorem overlap_write (fetch : String → Option (List Token)) (domains : List String)
    (s : State) (i j : Nat) (c : webPage) (d : Int) (t : Task)
    (hp : s.panicked = false) (hi : s.tasks[i]? = some (Task.fetched c d))
    (hj : s.tasks[j]? = some t) (hij : i ≠ j)
    (ht : (writesMap t || readsMap domains t) = true) :
    stepRacy fetch domains (Move.overlap i j) s = none := by
  simp only [stepRacy, hp, Bool.false_eq_true, ↓reduceIte, hi, hj]
  rw [if_pos]
  refine ⟨hij, ?_⟩
  simp only [conflicting, writesMap, Bool.true_and, Bool.or_eq_true] at ht ⊢
  exact Or.inl ht

theorem scenario_racy_abort :
    runRacy scenarioFetch scenarioDomains
      [Move.alone 0, Move.alone 0, Move.alone 0, Move.alone 0, Move.alone 0, Move.alone 0,
       Move.alone 0, Move.alone 2, Move.alone 1, Move.overlap 1 2] scenarioInit = none := by
  decide

/-- C4: a crawl task at depth 0 whose fetch succeeds starts no goroutine at any
of its three program points, whatever links the page has: the links are
dropped unread.  When no other access to the map overlaps its actions, the
task builds the page, inserts exactly its own URI in `crawled` and returns;
when its write of the map overlaps another goroutine's access, the runtime
ends the process.  In the scenario of the specification every run that the
process survives to its end has visited exactly `/start`, `/a` and `/b`, `/c`
is visited in no state, one sequence of moves ends with exactly that set, and
another, where the writes of `/a` and `/b` overlap, ends the process. -/
theorem depth_boundary (fetch : String → Option (List Token)) (domains : List String)
    (u : String) (evs : List Token) (hf : fetch u = some evs) (moves : List Move) :
    (∀ crawled,
        (act fetch domains crawled (Task.crawl u 0)).spawned = []
        ∧ (act fetch domains crawled
            (Task.fetched (buildIndexLoop evs true (emptyPage u)) 0)).spawned = []
        ∧ (act fetch domains crawled
            (Task.fetched (buildIndexLoop evs true (emptyPage u)) 0)).next
            = some (Task.ranging (buildIndexLoop evs true (emptyPage u)) 0 [])
        ∧ (act fetch domains crawled
            (Task.ranging (buildIndexLoop evs true (emptyPage u)) 0 [])).spawned = [])
    ∧ (∀ (s : State) (i : Nat), s.panicked = false → s.tasks[i]? = some (Task.crawl u 0) →
        runRacy fetch domains [Move.alone i, Move.alone i, Move.alone i] s =
          some { crawled := setInsert u s.crawled, wg := s.wg - 1,
                 tasks := s.tasks.eraseIdx i, panicked := false })
    ∧ (∀ (s : State) (i j : Nat) (t : Task), s.panicked = false →
        s.tasks[i]? = some (Task.fetched (buildIndexLoop evs true (emptyPage u)) 0) →
        s.tasks[j]? = some t → i ≠ j → (writesMap t || readsMap domains t) = true →
        stepRacy fetch domains (Move.overlap i j) s = none)
    ∧ (∀ s : State, runRacy scenarioFetch scenarioDomains moves scenarioInit = some s →
        "https://x.test/c" ∉ s.crawled
        ∧ (finished s = true →
            ∀ v, v ∈ s.crawled ↔
              v = "https://x.test/start" ∨ v = "https://x.test/a" ∨ v = "https://x.test/b"))
    ∧ runRacy scenarioFetch scenarioDomains
        (List.replicate 14 (Move.alone 0)) scenarioInit =
        some { crawled := ["https://x.test/start", "https://x.test/a", "https://x.test/b"],
               wg := 0, tasks := [], panicked := false }
    ∧ runRacy scenarioFetch scenarioDomains
        [Move.alone 0, Move.alone 0, Move.alone 0, Move.alone 0, Move.alone 0, Move.alone 0,
         Move.alone 0, Move.alone 2, Move.alone 1, Move.overlap 1 2] scenarioInit = none := by
  have hb : buildIndex fetch u = some (buildIndexLoop evs true (emptyPage u)) := by
    simp [buildIndex, hf, emptyPage]
  refine ⟨fun crawled => ⟨by simp [act, hb], by simp [act], by simp [act], by simp [act]⟩,
    fun s i hp ht => ?_, fun s i j t hp hi hj hij ht => overlap_write fetch domains s i j _ 0 t
      hp hi hj hij ht, fun s hs => ?_, ?_, scenario_racy_abort⟩
  · have h := runRacy_alone fetch domains [i, i, i] s
    simp only [List.map_cons, List.map_nil] at h
    rw [h, depth_zero_run fetch domains u evs hf s i hp ht]
  · obtain ⟨sched, rfl⟩ := runRacy_some scenarioFetch scenarioDomains moves scenarioInit s hs
    exact ⟨scenario_never_c sched, fun hfin v => scenario_final sched hfin v⟩
  · have h := runRacy_alone scenarioFetch scenarioDomains
      [0, 0, 0, 0, 0, 0, 0, 0, 0, 0, 0, 0, 0, 0] scenarioInit
    rw [scenario_run_zero] at h
    exact h

theorem depth_boundary_witness :
    runRacy scenarioFetch scenarioDomains [Move.alone 1, Move.alone 1, Move.alone 1]
      { crawled := ["https://x.test/start"], wg := 2,
        tasks := [Task.ranging (emptyPage "https://x.test/start") 1 [],
                  Task.crawl "https://x.test/a" 0], panicked := false } =
      some ({ crawled := setInsert "https://x.test/a" ["https://x.test/start"], wg := 2 - 1,
              tasks := [Task.ranging (emptyPage "https://x.test/start") 1 []],
              panicked := false } : State) :=
  (depth_boundary scenarioFetch scenarioDomains "https://x.test/a" [anchor "/c"] (by decide)
    []).2.1 _ 1 rfl rfl

/-- C5 (the code does not have the property): a page links twice to the same
in-domain URI; both occurrences pass the test `crawled[next]`, because the URI
is inserted only by the child after its fetch, and two goroutines crawl the
same URI. -/
theorem crawl_duplicate_spawn :
    (run dupFetch ["https://x.test"] [0, 0, 0, 0, 0, 0]
        (crawlDomainsAt 1 ["https://x.test/start"])).tasks =
      [Task.ranging { uri := "https://x.test/start", words := [], links := ["/a", "/a"] } 1 [],
       Task.crawl "https://x.test/a" 0, Task.crawl "https://x.test/a" 0]
    ∧ (run dupFetch ["https://x.test"] [0, 0, 0, 0, 0, 0, 1, 2]
        (crawlDomainsAt 1 ["https://x.test/start"])).tasks =
      [Task.ranging { uri := "https://x.test/start", words := [], links := ["/a", "/a"] } 1 [],
       Task.fetched { uri := "https://x.test/a", words := [], links := [] } 0,
       Task.fetched { uri := "https://x.test/a", words := [], links := [] } 0] := by
  decide

theorem fetched_local (fetch : String → Option (List Token)) (domains : List String) :
    LocalInv fetch domains (fetchedTask fetch) (fun u => fetch u ≠ none) := by
  intro crawled t hQ hP
  cases t with
  | seeding rest d =>
    cases rest with
    | nil => exact ⟨hQ, by simp [act], by simp [act]⟩
    | cons u rest =>
      refine ⟨hQ, ?_, ?_⟩
      · intro x hx
        simp only [act, Option.some.injEq] at hx
        subst hx; trivial
      · intro x hx
        simp only [act, List.mem_singleton] at hx
        subst hx; trivial
  | crawl u d =>
    cases hb : buildIndex fetch u with
    | none => simp only [act, hb]; exact ⟨hQ, by simp, by simp⟩
    | some c =>
      simp only [act, hb]
      refine ⟨hQ, ?_, by simp⟩
      intro x hx
      simp only [Option.some.injEq] at hx
      subst hx
      show fetch c.uri ≠ none
      rw [buildIndex_uri fetch u c hb]
      intro hn
      rw [(buildIndex_eq_none fetch u).2 hn] at hb
      cases hb
  | fetched c d =>
    refine ⟨?_, ?_, by simp [act]⟩
    · intro u hu
      simp only [act, mem_setInsert] at hu
      rcases hu with rfl | hu
      · exact hP
      · exact hQ u hu
    · intro x hx
      simp only [act, Option.some.injEq] at hx
      subst hx; trivial
  | ranging c d rest =>
    cases rest with
    | nil => exact ⟨hQ, by simp [act], by simp [act]⟩
    | cons next rest =>
      simp only [act]
      split
      · refine ⟨hQ, ?_, by simp⟩
        intro x hx
        simp only [Option.some.injEq] at hx
        subst hx; trivial
      · split
        · refine ⟨hQ, ?_, ?_⟩
          · intro x hx
            simp only [Option.some.injEq] at hx
            subst hx; trivial
          · intro x hx
            simp only [List.mem_singleton] at hx
            subst hx; trivial
        · refine ⟨hQ, ?_, by simp⟩
          intro x hx
          simp only [Option.some.injEq] at hx
          subst hx; trivial

/-- C6: when the fetch of `u` fails, `buildIndex` returns an error and the
crawl task for `u`, at any depth and in any state, performs one action: it
returns.  The visited set is unchanged, no goroutine is started, the
`WaitGroup` counter goes down by exactly one, no panic is raised and the other
goroutines are left as they were; in no state of any run is `u` visited. -/
theorem fetch_failure_absorbed (fetch : String → Option (List Token)) (domains : List String)
    (u : String) (depth : Int) (hf : fetch u = none) :
    buildIndex fetch u = none
    ∧ (∀ crawled, act fetch domains crawled (Task.crawl u depth) =
        { next := none, spawned := [], crawled := crawled, wg := -1, panic := false })
    ∧ (∀ (s : State) (i : Nat), s.panicked = false → s.tasks[i]? = some (Task.crawl u depth) →
        step fetch domains i s =
          { crawled := s.crawled, wg := s.wg - 1, tasks := s.tasks.eraseIdx i,
            panicked := false })
    ∧ (∀ (seeds : List String) (d : Int) (sched : List Nat),
        u ∉ (run fetch domains sched (crawlDomainsAt d seeds)).crawled) := by
  have hb : buildIndex fetch u = none := (buildIndex_eq_none fetch u).2 hf
  refine ⟨hb, fun crawled => by simp [act, hb], fun s i hp ht => ?_, fun seeds d sched hu => ?_⟩
  · simp only [step, hp, Bool.false_eq_true, ↓reduceIte, ht, act, hb, updateTasks,
      List.append_nil]
    rfl
  · have h0 : Inv (fetchedTask fetch) (fun v => fetch v ≠ none) (crawlDomainsAt d seeds) := by
      refine ⟨by simp [crawlDomainsAt], fun t ht => ?_⟩
      simp only [crawlDomainsAt, List.mem_singleton] at ht
      subst ht
      trivial
    exact (run_inv (fetched_local fetch domains) sched _ h0).1 u hu hf

theorem fetch_failure_absorbed_witness :
    step bareFetch ["https://x.test"] 1
      { crawled := ["https://x.test/start"], wg := 2,
        tasks := [Task.ranging (emptyPage "https://x.test/start") 1 [],
                  Task.crawl "https://x.test/a" 0],
        panicked := false } =
      { crawled := ["https://x.test/start"], wg := 2 - 1,
        tasks := [Task.ranging (emptyPage "https://x.test/start") 1 []], panicked := false } :=
  (fetch_failure_absorbed bareFetch ["https://x.test"] "https://x.test/a" 0
    (by decide)).2.2.1 _ 1 rfl rfl

/-! ## Stream errors -/

theorem buildIndexLoop_error (pre post : List Token) (e : StreamErr) :
    ∀ (r : Bool) (c : webPage),
      buildIndexLoop (pre ++ Token.ErrorToken e :: post) r c = buildIndexLoop pre r c := by
  induction pre with
  | nil => intro r c; simp [buildIndexLoop]
  | cons tok pre ih =>
    intro r c
    rw [List.cons_append]
    cases tok <;> simp only [buildIndexLoop, ih]

/-- C7 as stated fails: the stream of `https://x.test/p` ends with a stream
error other than end-of-stream, yet the URI is added to `crawled` and a
goroutine is started for the link seen before the error. -/
theorem stream_error_counterexample :
    brokenFetch "https://x.test/p"
      = some [anchor "/q", Token.ErrorToken (StreamErr.other "unexpected EOF")]
    ∧ "https://x.test/p" ∈ (run brokenFetch ["https://x.test"] [0, 0, 0, 0, 0]
        (crawlDomainsAt 1 ["https://x.test/p"])).crawled
    ∧ Task.crawl "https://x.test/q" 0 ∈ (run brokenFetch ["https://x.test"] [0, 0, 0, 0, 0]
        (crawlDomainsAt 1 ["https://x.test/p"])).tasks := by
  decide

/-- C7, amended: a stream error, of whatever kind, ends the token loop the
way end-of-stream does.  `buildIndex` returns without error the page built
from the tokens before the `ErrorToken`; the crawl task then inserts the URI
in `crawled` and ranges over the links seen before the error. -/
theorem stream_error_like_eof (fetch : String → Option (List Token)) (domains : List String)
    (u : String) (pre post : List Token) (e : StreamErr) (depth : Int)
    (hf : fetch u = some (pre ++ Token.ErrorToken e :: post)) :
    buildIndex fetch u = some (buildIndexLoop pre true (emptyPage u))
    ∧ (buildIndexLoop pre true (emptyPage u)).links = anchorHrefs pre
    ∧ (∀ crawled, act fetch domains crawled (Task.crawl u depth) =
        { next := some (Task.fetched (buildIndexLoop pre true (emptyPage u)) depth),
          spawned := [], crawled := crawled, wg := 0, panic := false })
    ∧ (∀ crawled, act fetch domains crawled
          (Task.fetched (buildIndexLoop pre true (emptyPage u)) depth) =
        { next := some (Task.ranging (buildIndexLoop pre true (emptyPage u)) depth
            (if depth > 0 then anchorHrefs pre else [])),
          spawned := [], crawled := setInsert u crawled, wg := 0, panic := false }) := by
  have hb : buildIndex fetch u = some (buildIndexLoop pre true (emptyPage u)) := by
    simp [buildIndex, hf, emptyPage, buildIndexLoop_error]
  have hu : (buildIndexLoop pre true (emptyPage u)).uri = u := by
    rw [buildIndexLoop_uri]; rfl
  have hl : (buildIndexLoop pre true (emptyPage u)).links = anchorHrefs pre := by
    rw [buildIndexLoop_links]; simp [emptyPage]
  exact ⟨hb, hl, fun crawled => by simp [act, hb], fun crawled => by simp [act, hu, hl]⟩

theorem stream_error_like_eof_witness :
    buildIndex brokenFetch "https://x.test/p"
      = some (buildIndexLoop [anchor "/q"] true (emptyPage "https://x.test/p")) :=
  (stream_error_like_eof brokenFetch ["https://x.test"] "https://x.test/p" [anchor "/q"] []
    (StreamErr.other "unexpected EOF") 1 (by decide)).1

/-! ## Out-of-range resolution -/

theorem slashCount_le_of_validDomain (u : String) (domains : List String)
    (hd : ∀ d ∈ domains, 2 ≤ slashCount d) (h : validDomain u domains = true) :
    2 ≤ slashCount u := by
  obtain ⟨d, hdm, t, rfl⟩ := (validDomain_iff_exists u domains).1 h
  rw [slashCount_append]
  have := hd d hdm
  omega

theorem resolve_some_of_slash (p r : String) (h : 2 ≤ slashCount p) :
    ∃ n, resolve p r = some n := by
  by_cases hr : HasPrefix r "/" = true
  · have h1 := (resolve_isSome_iff p r hr).2 h
    exact Option.isSome_iff_exists.1 h1
  · exact ⟨r, by simp [resolve, hr]⟩

theorem slash_local (fetch : String → Option (List Token)) (seeds domains : List String)
    (H : ∀ u, (u ∈ seeds ∨ validDomain u domains = true) → fetch u ≠ none → 2 ≤ slashCount u) :
    LocalInv fetch domains (slashTask seeds domains) (fun _ => True) := by
  intro crawled t _ hP
  refine ⟨fun _ _ => trivial, ?_, ?_⟩
  · intro x hx
    cases t with
    | seeding rest d =>
      cases rest with
      | nil => simp [act] at hx
      | cons u rest =>
        simp only [act, Option.some.injEq] at hx
        subst hx
        exact fun v hv => hP v (List.mem_cons_of_mem _ hv)
    | crawl u d =>
      cases hb : buildIndex fetch u with
      | none => simp [act, hb] at hx
      | some c =>
        simp only [act, hb, Option.some.injEq] at hx
        subst hx
        show 2 ≤ slashCount c.uri
        rw [buildIndex_uri fetch u c hb]
        refine H u hP (fun hn => ?_)
        rw [(buildIndex_eq_none fetch u).2 hn] at hb
        cases hb
    | fetched c d =>
      simp only [act, Option.some.injEq] at hx
      subst hx
      exact hP
    | ranging c d rest =>
      cases rest with
      | nil => simp [act] at hx
      | cons next rest =>
        simp only [act] at hx
        split at hx
        · simp only [Option.some.injEq] at hx; subst hx; exact hP
        · split at hx <;> (simp only [Option.some.injEq] at hx; subst hx; exact hP)
  · intro x hx
    cases t with
    | seeding rest d =>
      cases rest with
      | nil => simp [act] at hx
      | cons u rest =>
        simp only [act, List.mem_singleton] at hx
        subst hx
        exact Or.inl (hP u (List.mem_cons_self _ _))
    | crawl u d =>
      simp only [act] at hx
      split at hx <;> simp at hx
    | fetched c d => simp [act] at hx
    | ranging c d rest =>
      cases rest with
      | nil => simp [act] at hx
      | cons next rest =>
        simp only [act] at hx
        split at hx
        · simp at hx
        · split at hx
          · rename_i hv
            simp only [List.mem_singleton] at hx
            subst hx
            simp only [Bool.and_eq_true] at hv
            exact Or.inr hv.1
          · simp at hx

theorem slash_no_panic (fetch : String → Option (List Token)) (seeds domains crawled : List String)
    (t : Task) (hP : slashTask seeds domains t) :
    (act fetch domains crawled t).panic = false := by
  cases t with
  | seeding rest d => cases rest <;> rfl
  | crawl u d => simp only [act]; split <;> rfl
  | fetched c d => rfl
  | ranging c d rest =>
    cases rest with
    | nil => rfl
    | cons next rest =>
      obtain ⟨n, hn⟩ := resolve_some_of_slash c.uri next hP
      simp only [act, hn]
      split <;> rfl

theorem run_no_panic (fetch : String → Option (List Token)) (seeds domains : List String)
    (H : ∀ u, (u ∈ seeds ∨ validDomain u domains = true) → fetch u ≠ none → 2 ≤ slashCount u)
    (sched : List Nat) :
    ∀ s : State, Inv (slashTask seeds domains) (fun _ => True) s → s.panicked = false →
      Inv (slashTask seeds domains) (fun _ => True) (run fetch domains sched s)
      ∧ (run fetch domains sched s).panicked = false := by
  induction sched with
  | nil => intro s h hp; exact ⟨h, hp⟩
  | cons i sched ih =>
    intro s h hp
    refine ih _ (step_inv (slash_local fetch seeds domains H) i s h) ?_
    unfold step
    rw [hp]
    simp only [Bool.false_eq_true, ↓reduceIte]
    cases ht : s.tasks[i]? with
    | none => exact hp
    | some t => exact slash_no_panic fetch seeds domains s.crawled t (h.2 t (List.getElem?_mem ht))

/-- The guard is not in `crawl`: with a fetcher that answers for `localhost`
(which `http.Get` does not) the split has one component, the slice `[0:3]` is
out of range and the run panics. -/
theorem resolve_needs_two_slashes :
    resolve "localhost" "/about" = none
    ∧ (run bareFetch [] [0, 0, 0, 0, 0] (crawlDomains ["localhost"])).panicked = true := by
  decide

/-- Seeds and domain prefixes that all contain two `/` keep resolution in
range, whatever the fetcher. -/
theorem slash_of_config (fetch : String → Option (List Token)) (seeds domains : List String)
    (hs : ∀ u ∈ seeds, 2 ≤ slashCount u) (hd : ∀ d ∈ domains, 2 ≤ slashCount d) :
    ∀ u, (u ∈ seeds ∨ validDomain u domains = true) → fetch u ≠ none → 2 ≤ slashCount u := by
  intro u hu _
  rcases hu with hu | hu
  · exact hs u hu
  · exact slashCount_le_of_validDomain u domains hd hu

/-- A URL accepted by `http.Get` contains two `/`. -/
theorem slash_of_contract (fetch : String → Option (List Token)) (seeds domains : List String)
    (hget : HttpGetContract fetch) :
    ∀ u, (u ∈ seeds ∨ validDomain u domains = true) → fetch u ≠ none → 2 ≤ slashCount u := by
  intro u _ hf
  obtain ⟨scheme, rest, rfl⟩ := hget u hf
  rw [slashCount_append, slashCount_append]
  have h2 : slashCount "://" = 2 := by decide
  omega

/-- In-range resolution from its invariant: when every seed and every
in-domain URI whose fetch succeeds contains two `/`, no run panics, every page
being ranged over has a URI with two `/`, and every run can finish. -/
theorem in_range_of_slashes (fetch : String → Option (List Token)) (seeds domains : List String)
    (depth : Int) (sched : List Nat)
    (H : ∀ u, (u ∈ seeds ∨ validDomain u domains = true) → fetch u ≠ none → 2 ≤ slashCount u) :
    (run fetch domains sched (crawlDomainsAt depth seeds)).panicked = false
    ∧ (∀ c d rest,
        Task.ranging c d rest ∈ (run fetch domains sched (crawlDomainsAt depth seeds)).tasks →
        2 ≤ slashCount c.uri ∧ ∀ r, ∃ n, resolve c.uri r = some n)
    ∧ (∃ more,
        finished (run fetch domains (sched ++ more) (crawlDomainsAt depth seeds)) = true) := by
  have h0 : Inv (slashTask seeds domains) (fun _ => True) (crawlDomainsAt depth seeds) := by
    refine ⟨fun _ _ => trivial, fun t ht => ?_⟩
    simp only [crawlDomainsAt, List.mem_singleton] at ht
    subst ht
    exact fun u hu => hu
  obtain ⟨hinv, hp⟩ := run_no_panic fetch seeds domains H sched _ h0 rfl
  refine ⟨hp, fun c d rest hm => ?_, ?_⟩
  · have h2 : 2 ≤ slashCount c.uri := hinv.2 _ hm
    exact ⟨h2, fun r => resolve_some_of_slash c.uri r h2⟩
  · obtain ⟨more, hm⟩ := run_can_finish fetch domains seeds depth sched
    refine ⟨more, ?_⟩
    rcases hm with hm | hm
    · exact hm
    · rw [(run_no_panic fetch seeds domains H (sched ++ more) _ h0 rfl).2] at hm
      cases hm

/-- C10: resolution of a root-relative link is defined exactly when the page
URI contains at least two `/`, and every URI that `crawl` expands does: a page
is only built for a URL that `http.Get` accepted, which has the form
`scheme://...`.  So for all seeds, domains and depths no state of any run has
taken the out-of-range branch, the slice is in range for every page being
ranged over, and the run can finish.  For the seeds and domains of `main` this
holds whatever the fetcher does. -/
theorem resolve_never_out_of_range (fetch : String → Option (List Token))
    (seeds domains : List String) (depth : Int) (sched : List Nat)
    (hget : HttpGetContract fetch) :
    (∀ p r, HasPrefix r "/" = true → ((resolve p r).isSome = true ↔ 2 ≤ slashCount p))
    ∧ (run fetch domains sched (crawlDomainsAt depth seeds)).panicked = false
    ∧ (∀ c d rest,
        Task.ranging c d rest ∈ (run fetch domains sched (crawlDomainsAt depth seeds)).tasks →
        2 ≤ slashCount c.uri ∧ ∀ r, ∃ n, resolve c.uri r = some n)
    ∧ (∃ more,
        finished (run fetch domains (sched ++ more) (crawlDomainsAt depth seeds)) = true)
    ∧ (∀ (anyFetch : String → Option (List Token)) (anySched : List Nat),
        (run anyFetch mainDomains anySched (crawlDomains mainSeeds)).panicked = false) := by
  obtain ⟨h1, h2, h3⟩ := in_range_of_slashes fetch seeds domains depth sched
    (slash_of_contract fetch seeds domains hget)
  refine ⟨fun p r hr => resolve_isSome_iff p r hr, h1, h2, h3, fun anyFetch anySched => ?_⟩
  exact (in_range_of_slashes anyFetch mainSeeds mainDomains 2 anySched
    (slash_of_config anyFetch mainSeeds mainDomains (by decide) (by decide))).1

theorem httpFetch_contract : HttpGetContract httpFetch := by
  intro u hu
  unfold httpFetch at hu
  split at hu
  · rename_i h
    exact ⟨"https", "github.com/fabritsius?tab=repositories", by rw [h]; decide⟩
  · exact absurd rfl hu

theorem resolve_never_out_of_range_witness :
    (run httpFetch mainDomains [0, 0, 0, 0, 0, 0, 1, 1, 1] (crawlDomainsAt 2 mainSeeds)).panicked
      = false :=
  (resolve_never_out_of_range httpFetch mainSeeds mainDomains 2 [0, 0, 0, 0, 0, 0, 1, 1, 1]
    httpFetch_contract).2.1

end Crawler
